import Mathlib

/-!
# Encrypted arithmetic and aggregation (`ckksMath`)

A shallow embedding of `src/ckksMath/ckks_math.go`, `src/ckksMath/ckks_math_highlevel.go`
and of `DecryptCKKS` from `src/ckks_encryption.go`.

* A Go function returning `(x, error)` becomes a computation in `Run`: it either returns a
  value, returns one of the `error` values of the package, or aborts with a run-time panic.
  `Run` also records, in order, every call made into the evaluator.
* The lattigo evaluator (`CkksEvaluator`) and the ciphertext codec are library code outside
  the repository; they are modelled in exact arithmetic over `ℚ`.
* `[]byte` blobs are modelled by what `UnmarshalBinary` makes of them.
* `float64` constants are rationals, `int` is `Int`.
-/

namespace ckksMath

/-! ## Data model -/

/-- A lattigo `*ckks.Ciphertext`, reduced to what the evaluator model observes: the scalar it
encrypts and its degree (a freshly encrypted value has degree 1). -/
structure Ciphertext where
  value : ℚ
  degree : Nat
  deriving DecidableEq, Repr

/-- A serialized ciphertext (`[]byte`). Either the bytes are the binary form of a
ciphertext, or `UnmarshalBinary` rejects them (`nil` is `malformed []`). -/
inductive Blob where
  | encoded (ct : Ciphertext)
  | malformed (bytes : List Nat)
  deriving DecidableEq, Repr

/-- The ways a call can fail. The first three are `error` values handed back to the caller:
`errors.New("cannot use empty array")`, `errors.New("arrays must be of the same length")`
and the error of `UnmarshalBinary`. `panic` is a run-time abort (negative `make` length,
slice or index out of range, nil dereference): nothing is returned. -/
inductive Failure where
  | emptyInput
  | lengthMismatch
  | deserialization
  | panic
  deriving DecidableEq, Repr

/-- One call into the evaluator, with its operands. `addConstNil` is `AddConstNew` called
with a nil ciphertext pointer. -/
inductive EvalStep where
  | add (a b : Ciphertext)
  | sub (a b : Ciphertext)
  | addConst (a : Ciphertext) (c : ℚ)
  | multByConst (a : Ciphertext) (c : ℚ)
  | mul (a b : Ciphertext)
  | relinearize (a : Ciphertext)
  | addConstNil (c : ℚ)
  deriving DecidableEq, Repr

/-- A run of a Go function: the evaluator calls it made, in order, and how it ended. -/
structure Run (α : Type) where
  trace : List EvalStep
  result : Except Failure α

namespace Run

/-- Normal return without touching the evaluator. -/
def ret {α : Type} (a : α) : Run α := ⟨[], .ok a⟩

/-- Leave with a failure: `return nil, err`, or a panic. -/
def fail {α : Type} (e : Failure) : Run α := ⟨[], .error e⟩

/-- Sequencing: the continuation runs only when the first part returned normally. -/
def andThen {α β : Type} (m : Run α) (f : α → Run β) : Run β :=
  match m.result with
  | .ok a => ⟨m.trace ++ (f a).trace, (f a).result⟩
  | .error e => ⟨m.trace, .error e⟩

instance : Monad Run where
  pure := ret
  bind := andThen

/-- The blank assignment `x, _ := f()`: the returned `error` is dropped and `x` is nil
(`none`) when there was one. A panic still aborts. -/
def dropError {α : Type} (m : Run α) : Run (Option α) :=
  match m.result with
  | .ok a => ⟨m.trace, .ok (some a)⟩
  | .error .panic => ⟨m.trace, .error .panic⟩
  | .error _ => ⟨m.trace, .ok none⟩

end Run

/-! ## The evaluator and the codec -/

/-- Modelled from the spec: the lattigo method `Ciphertext.MarshalBinary` is not part of the
repository. It serializes a ciphertext; the blob it produces decodes back to that
ciphertext. -/
def MarshalBinary (ct : Ciphertext) : Run Blob := Run.ret (.encoded ct)

namespace CkksEvaluator

/-- Modelled from the spec: evaluator `add(a, b) -> c` (lattigo `AddNew`), exact on the
plaintexts, keeping the larger degree. -/
def AddNew (a b : Ciphertext) : Run Ciphertext :=
  ⟨[.add a b], .ok ⟨a.value + b.value, max a.degree b.degree⟩⟩

/-- Modelled from the spec: `Add(a, b, out)` is `AddNew` writing into `out`; the value
returned here is the new content of `out`. -/
def Add (a b : Ciphertext) : Run Ciphertext := AddNew a b

/-- Modelled from the spec: evaluator `sub(a, b) -> c` (lattigo `SubNew`). -/
def SubNew (a b : Ciphertext) : Run Ciphertext :=
  ⟨[.sub a b], .ok ⟨a.value - b.value, max a.degree b.degree⟩⟩

/-- Modelled from the spec: evaluator `addConstant(a, k) -> c` (lattigo `AddConstNew`). -/
def AddConstNew (a : Ciphertext) (c : ℚ) : Run Ciphertext :=
  ⟨[.addConst a c], .ok ⟨a.value + c, a.degree⟩⟩

/-- Modelled from the spec: evaluator `addConstant(a, k) -> c` (lattigo `AddConstNew`),
here handed a `*ckks.Ciphertext` that may be nil. The spec gives no behaviour for a missing
operand: the call is made either way, and since the method reads its operand, Go aborts it
on a nil pointer with a nil dereference. -/
def AddConstNewOnPointer (a : Option Ciphertext) (c : ℚ) : Run Ciphertext :=
  match a with
  | some ciphertext => AddConstNew ciphertext c
  | none => ⟨[.addConstNil c], .error .panic⟩

/-- Modelled from the spec: evaluator `mulConstant(a, k) -> c` (lattigo `MultByConstNew`);
the degree does not change. -/
def MultByConstNew (a : Ciphertext) (c : ℚ) : Run Ciphertext :=
  ⟨[.multByConst a c], .ok ⟨a.value * c, a.degree⟩⟩

/-- Modelled from the spec: evaluator `mul(a, b) -> c` (lattigo `MulNew`); the degrees of the
operands add up. -/
def MulNew (a b : Ciphertext) : Run Ciphertext :=
  ⟨[.mul a b], .ok ⟨a.value * b.value, a.degree + b.degree⟩⟩

/-- Modelled from the spec: evaluator `relinearize(c) -> c'`, in place: same plaintext,
degree back to 1. -/
def Relinearize (a : Ciphertext) : Run Ciphertext :=
  ⟨[.relinearize a], .ok ⟨a.value, 1⟩⟩

end CkksEvaluator

/-! ## Primitive layer (`ckks_math.go`) -/

/-- Go function `unmarshallIntoNewCiphertext` (ckks_math.go:12): allocate a ciphertext and
`UnmarshalBinary` the blob into it; the error of the codec is returned as is. -/
def unmarshallIntoNewCiphertext (encryptedData : Blob) : Run Ciphertext :=
  match encryptedData with
  | .encoded ciphertext => Run.ret ciphertext
  | .malformed _ => Run.fail .deserialization

/-- Go function `MakeZeroCiphertext` (ckks_math.go:23): subtract the decoded ciphertext from
itself. -/
def MakeZeroCiphertext (someEncryptedData : Blob) : Run Ciphertext := do
  let ciphertext ← unmarshallIntoNewCiphertext someEncryptedData
  CkksEvaluator.SubNew ciphertext ciphertext

/-- Go function `MakeCiphertextFromFloat` (ckks_math.go:33): it has no `error` result; the
error of `MakeZeroCiphertext` is assigned to `_` and `AddConstNew` is called on whatever
pointer came back. -/
def MakeCiphertextFromFloat (number : ℚ) (someEncryptedData : Blob) : Run Ciphertext := do
  let zeroCiphertext ← (MakeZeroCiphertext someEncryptedData).dropError
  let ciphertext ← CkksEvaluator.AddConstNewOnPointer zeroCiphertext number
  pure ciphertext

/-- Go function `AddConst` (ckks_math.go:41). -/
def AddConst (encryptedData : Blob) (addValue : ℚ) : Run Blob := do
  let ciphertext ← unmarshallIntoNewCiphertext encryptedData
  let r ← CkksEvaluator.AddConstNew ciphertext addValue
  MarshalBinary r

/-- Go function `SubtractConst` (ckks_math.go:52): adds the negated constant. -/
def SubtractConst (encryptedData : Blob) (subValue : ℚ) : Run Blob := do
  let ciphertext ← unmarshallIntoNewCiphertext encryptedData
  let r ← CkksEvaluator.AddConstNew ciphertext (-subValue)
  MarshalBinary r

/-- Go function `MultByConst` (ckks_math.go:63). -/
def MultByConst (encryptedData : Blob) (multValue : ℚ) : Run Blob := do
  let ciphertext ← unmarshallIntoNewCiphertext encryptedData
  let r ← CkksEvaluator.MultByConstNew ciphertext multValue
  MarshalBinary r

/-- Go function `SumOf2` (ckks_math.go:74). -/
def SumOf2 (encryptedData encryptedData2 : Blob) : Run Blob := do
  let ciphertext ← unmarshallIntoNewCiphertext encryptedData
  let ciphertext2 ← unmarshallIntoNewCiphertext encryptedData2
  let r ← CkksEvaluator.AddNew ciphertext ciphertext2
  MarshalBinary r

/-- Go function `Subtract` (ckks_math.go:90). -/
def Subtract (encryptedData encryptedData2 : Blob) : Run Blob := do
  let ciphertext ← unmarshallIntoNewCiphertext encryptedData
  let ciphertext2 ← unmarshallIntoNewCiphertext encryptedData2
  let r ← CkksEvaluator.SubNew ciphertext ciphertext2
  MarshalBinary r

/-- Go function `MultOf2` (ckks_math.go:106). -/
def MultOf2 (encryptedData encryptedData2 : Blob) : Run Blob := do
  let ciphertext ← unmarshallIntoNewCiphertext encryptedData
  let ciphertext2 ← unmarshallIntoNewCiphertext encryptedData2
  let r ← CkksEvaluator.MulNew ciphertext ciphertext2
  MarshalBinary r

/-- Go function `DivByConst` (ckks_math.go:123): multiplies by `1.0 / divisor`. -/
def DivByConst (encryptedDataDividend : Blob) (encryptedDataDivisor : ℚ) : Run Blob := do
  let ciphertext ← unmarshallIntoNewCiphertext encryptedDataDividend
  let r ← CkksEvaluator.MultByConstNew ciphertext (1 / encryptedDataDivisor)
  MarshalBinary r

/-- Go function `Pow2` (ckks_math.go:134): multiplies the ciphertext by itself. -/
def Pow2 (encryptedData : Blob) : Run Blob := do
  let ciphertext ← unmarshallIntoNewCiphertext encryptedData
  let r ← CkksEvaluator.MulNew ciphertext ciphertext
  MarshalBinary r

/-- Go function `DecryptCKKS` (ckks_encryption.go:28): decode the blob, decrypt, decode the
plaintext and return the real part of slot 0. Decryption is exact in this model. -/
def DecryptCKKS (data : Blob) : Except Failure ℚ :=
  match (unmarshallIntoNewCiphertext data).result with
  | .ok ciphertext => .ok ciphertext.value
  | .error err => .error err

/-! ## Go slices -/

/-- The index expression `a[i]`: panics when `i` is out of range. -/
def index {α : Type} (a : List α) (i : Nat) : Run α :=
  match a.get? i with
  | some x => Run.ret x
  | none => Run.fail .panic

/-- The allocation `make([][]byte, n)`: panics when `n` is negative, else `n` nil entries. -/
def makeSlice (n : Int) : Run (List Blob) :=
  if n < 0 then Run.fail .panic else Run.ret (List.replicate n.toNat (Blob.malformed []))

/-- The slice expression `a[low : high]`: panics unless `0 ≤ low ≤ high ≤ cap(a)`. The arrays
sliced here are only ever cut at `high ≤ len(a)`, so `len(a)` stands for the capacity. -/
def slice {α : Type} (a : List α) (low high : Int) : Run (List α) :=
  if 0 ≤ low ∧ low ≤ high ∧ high ≤ (a.length : Int) then
    Run.ret ((a.drop low.toNat).take (high - low).toNat)
  else
    Run.fail .panic

/-! ## Aggregation layer (`ckks_math_highlevel.go`) -/

/-- Go function `ArraySum` (ckks_math_highlevel.go:8). -/
def ArraySum (encryptedDataArray : List Blob) : Run Blob := do
  if encryptedDataArray.length = 0 then
    Run.fail .emptyInput
  else
    let first ← index encryptedDataArray 0
    let sumCiphertext ← MakeZeroCiphertext first
    let sumCiphertext ← encryptedDataArray.foldlM
      (fun sumCiphertext encryptedData => do
        let ciphertext ← unmarshallIntoNewCiphertext encryptedData
        CkksEvaluator.Add sumCiphertext ciphertext)
      sumCiphertext
    MarshalBinary sumCiphertext

/-- Go function `ArrayMean` (ckks_math_highlevel.go:31): the sum, multiplied by
`1.0 / float64(len)`. -/
def ArrayMean (encryptedDataArray : List Blob) : Run Blob := do
  let sum ← ArraySum encryptedDataArray
  let ciphertext ← unmarshallIntoNewCiphertext sum
  let r ← CkksEvaluator.MultByConstNew ciphertext (1 / (encryptedDataArray.length : ℚ))
  MarshalBinary r

/-- Go function `MovingAverage` (ckks_math_highlevel.go:47): `len - windowSize` means, entry
`i` from the window `[i : i+windowSize]`. The counting loop
`for i := 0; i < movingArrayLen; i++` runs over `List.range`. The `int` window size is an
`Int`: for `windowSize ≥ 0` neither `len - windowSize` nor `i + windowSize` leaves the range
of a machine integer, and for `windowSize < 0` the call aborts here as it does there. -/
def MovingAverage (encryptedDataArray : List Blob) (windowSize : Int) : Run (List Blob) := do
  let movingArrayLen : Int := (encryptedDataArray.length : Int) - windowSize
  let r ← makeSlice movingArrayLen
  (List.range movingArrayLen.toNat).foldlM
    (fun r (i : Nat) => do
      let window ← slice encryptedDataArray (i : Int) ((i : Int) + windowSize)
      let mean ← ArrayMean window
      Run.ret (r.set i mean))
    r

/-- Go function `Variance` (ckks_math_highlevel.go:61). The source drops the error of the
final `MarshalBinary` (overwritten by that of `DivByConst`); serialization never fails in
this model. -/
def Variance (encryptedDataArray : List Blob) : Run Blob := do
  if encryptedDataArray.length = 0 then
    Run.fail .emptyInput
  else
    let mean ← ArrayMean encryptedDataArray
    let first ← index encryptedDataArray 0
    let ciphertextSum ← MakeZeroCiphertext first
    let ciphertextSum ← encryptedDataArray.foldlM
      (fun ciphertextSum encryptedData => do
        let sub ← Subtract encryptedData mean
        let pow ← Pow2 sub
        let ciphertextPow ← unmarshallIntoNewCiphertext pow
        let ciphertextPow ← CkksEvaluator.Relinearize ciphertextPow
        CkksEvaluator.Add ciphertextSum ciphertextPow)
      ciphertextSum
    let sumSquaredDiff ← MarshalBinary ciphertextSum
    DivByConst sumSquaredDiff (encryptedDataArray.length : ℚ)

/-- Go function `ArithmeticProgressionElementN` (ckks_math_highlevel.go:106). -/
def ArithmeticProgressionElementN (firstMember dif numberOfMembers : Blob) : Run Blob := do
  let dec ← SubtractConst numberOfMembers 1
  let mult ← MultOf2 dif dec
  SumOf2 firstMember mult

/-- Go function `ArithmeticProgressionSum` (ckks_math_highlevel.go:120). -/
def ArithmeticProgressionSum (firstMember dif numberOfMembers : Blob) : Run Blob := do
  let elementN ← ArithmeticProgressionElementN firstMember dif numberOfMembers
  let sum ← SumOf2 firstMember elementN
  let sumCiphertext ← unmarshallIntoNewCiphertext sum
  let sumCiphertext ← CkksEvaluator.Relinearize sumCiphertext
  let sum ← MarshalBinary sumCiphertext
  let mult ← MultOf2 numberOfMembers sum
  DivByConst mult 2

/-- Go function `Covariance` (ckks_math_highlevel.go:150). The counting loop
`for i := 0; i < len(array1); i++` runs over `List.range`. -/
def Covariance (encryptedDataArray1 encryptedDataArray2 : List Blob) : Run Blob := do
  if encryptedDataArray1.length ≠ encryptedDataArray2.length then
    Run.fail .lengthMismatch
  else if encryptedDataArray1.length = 0 ∨ encryptedDataArray2.length = 0 then
    Run.fail .emptyInput
  else
    let mean1 ← ArrayMean encryptedDataArray1
    let mean2 ← ArrayMean encryptedDataArray2
    let first ← index encryptedDataArray1 0
    let ciphertextSum ← MakeZeroCiphertext first
    let ciphertextSum ← (List.range encryptedDataArray1.length).foldlM
      (fun ciphertextSum i => do
        let x ← index encryptedDataArray1 i
        let sub1 ← Subtract x mean1
        let y ← index encryptedDataArray2 i
        let sub2 ← Subtract y mean2
        let mult ← MultOf2 sub1 sub2
        let ciphertextMult ← unmarshallIntoNewCiphertext mult
        let ciphertextMult ← CkksEvaluator.Relinearize ciphertextMult
        CkksEvaluator.Add ciphertextSum ciphertextMult)
      ciphertextSum
    let sum ← MarshalBinary ciphertextSum
    DivByConst sum (encryptedDataArray1.length : ℚ)

/-! ## Vocabulary of the statements -/

deriving instance DecidableEq for Except

/-- The blob `b` is well formed and decrypts to the plaintext `x`. -/
def Encrypts (b : Blob) (x : ℚ) : Prop := DecryptCKKS b = .ok x

instance (b : Blob) (x : ℚ) : Decidable (Encrypts b x) :=
  inferInstanceAs (Decidable (DecryptCKKS b = .ok x))

/-- The array consists of well-formed blobs whose plaintexts are, in order, `xs`. -/
def EncryptsAll (array : List Blob) (xs : List ℚ) : Prop := List.Forall₂ Encrypts array xs

instance (array : List Blob) (xs : List ℚ) : Decidable (EncryptsAll array xs) :=
  inferInstanceAs (Decidable (List.Forall₂ Encrypts array xs))

/-- The ciphertext `ArrayMean` computes from the ciphertexts `cts`: the plaintexts summed and
multiplied by `1 / len`, at the largest degree among them. -/
def meanCiphertext (cts : List Ciphertext) : Ciphertext :=
  ⟨(cts.map Ciphertext.value).sum * (1 / (cts.length : ℚ)),
    (cts.map Ciphertext.degree).foldl max (cts.headD ⟨0, 0⟩).degree⟩

/-- The degree of the ciphertext a blob carries, if it carries one. -/
def Blob.degree? : Blob → Option Nat
  | .encoded ct => some ct.degree
  | .malformed _ => none

/-- The ciphertext a blob carries, if it carries one. -/
def Blob.ciphertext? : Blob → Option Ciphertext
  | .encoded ct => some ct
  | .malformed _ => none

/-- The ciphertext a step adds to the running sum: the second operand of an `add` call. -/
def EvalStep.addend : EvalStep → Option Ciphertext
  | .add _ b => some b
  | _ => none

/-- The evaluator calls of a loop: those of the body on the first element, then those of
the loop on the rest, started from the accumulator the body returned. -/
def loopTrace {β γ : Type} (T : β → γ → List EvalStep) (g : β → γ → β) :
    β → List γ → List EvalStep
  | _, [] => []
  | b, y :: ys => T b y ++ loopTrace T g (g b y) ys

/-- The ciphertext `SubNew` returns for `c - m`. -/
def differenceOf (c m : Ciphertext) : Ciphertext :=
  ⟨c.value - m.value, max c.degree m.degree⟩

/-- The ciphertext `MulNew` returns for `a * b`. -/
def productOf (a b : Ciphertext) : Ciphertext :=
  ⟨a.value * b.value, a.degree + b.degree⟩

/-- The evaluator calls of one iteration of the loop of `Variance`, on the decoded element
`c`, with decoded mean `m` and running sum `acc`. -/
def varianceIteration (m acc c : Ciphertext) : List EvalStep :=
  [.sub c m,
   .mul (differenceOf c m) (differenceOf c m),
   .relinearize (productOf (differenceOf c m) (differenceOf c m)),
   .add acc ⟨(productOf (differenceOf c m) (differenceOf c m)).value, 1⟩]

/-- The running sum of `Variance` after the iteration on `c`. -/
def varianceAccumulate (m acc c : Ciphertext) : Ciphertext :=
  ⟨acc.value + (c.value - m.value) * (c.value - m.value), max acc.degree 1⟩

/-- The evaluator calls of one iteration of the loop of `Covariance`, on the decoded
elements `x` and `y`, with decoded means `m1`, `m2` and running sum `acc`. -/
def covarianceIteration (m1 m2 acc x y : Ciphertext) : List EvalStep :=
  [.sub x m1,
   .sub y m2,
   .mul (differenceOf x m1) (differenceOf y m2),
   .relinearize (productOf (differenceOf x m1) (differenceOf y m2)),
   .add acc ⟨(productOf (differenceOf x m1) (differenceOf y m2)).value, 1⟩]

/-- The running sum of `Covariance` after the iteration on `x` and `y`. -/
def covarianceAccumulate (m1 m2 acc x y : Ciphertext) : Ciphertext :=
  ⟨acc.value + (x.value - m1.value) * (y.value - m2.value), max acc.degree 1⟩

/-- An `add` call whose two operands have degree 1; any other call passes. -/
def EvalStep.addAtDegreeOne : EvalStep → Bool
  | .add a b => decide (a.degree = 1 ∧ b.degree = 1)
  | _ => true

/-- A ciphertext-by-ciphertext multiplication. -/
def EvalStep.isMul : EvalStep → Bool
  | .mul _ _ => true
  | _ => false

/-- Every multiplication in the trace is followed at once by the relinearization of its
product, and then by an `add` of the relinearized product to a degree-1 running sum. -/
def productsRelinearized : List EvalStep → Bool
  | .mul a b :: .relinearize p :: .add s r :: rest =>
    decide (p = ⟨a.value * b.value, a.degree + b.degree⟩ ∧ r = ⟨p.value, 1⟩ ∧ s.degree = 1)
      && productsRelinearized rest
  | .mul _ _ :: _ => false
  | _ :: rest => productsRelinearized rest
  | [] => true

/-! ## Reasoning about runs -/

namespace Run

@[simp] theorem pure_eq {α : Type} (a : α) : (pure a : Run α) = ret a := rfl

@[simp] theorem bind_eq {α β : Type} (m : Run α) (f : α → Run β) :
    (m >>= f) = m.andThen f := rfl

@[simp] theorem ret_andThen {α β : Type} (a : α) (f : α → Run β) :
    (ret a).andThen f = f a := by
  simp [ret, andThen]

@[simp] theorem fail_andThen {α β : Type} (e : Failure) (f : α → Run β) :
    (fail e : Run α).andThen f = fail e := by
  simp [fail, andThen]

@[simp] theorem step_andThen {α β : Type} (t : List EvalStep) (a : α) (f : α → Run β) :
    (Run.mk t (.ok a)).andThen f = ⟨t ++ (f a).trace, (f a).result⟩ := by
  simp [andThen]

@[simp] theorem result_ret {α : Type} (a : α) : (ret a).result = .ok a := rfl

@[simp] theorem trace_ret {α : Type} (a : α) : (ret a).trace = [] := rfl

@[simp] theorem result_fail {α : Type} (e : Failure) : (fail e : Run α).result = .error e := rfl

@[simp] theorem trace_fail {α : Type} (e : Failure) : (fail e : Run α).trace = [] := rfl

theorem result_andThen_ok {α β : Type} {m : Run α} {a : α} (h : m.result = .ok a)
    (f : α → Run β) : (m.andThen f).result = (f a).result := by
  simp [andThen, h]

theorem trace_andThen_ok {α β : Type} {m : Run α} {a : α} (h : m.result = .ok a)
    (f : α → Run β) : (m.andThen f).trace = m.trace ++ (f a).trace := by
  simp [andThen, h]

theorem result_andThen_error {α β : Type} {m : Run α} {e : Failure} (h : m.result = .error e)
    (f : α → Run β) : (m.andThen f).result = .error e := by
  simp [andThen, h]

end Run

theorem encrypts_iff (b : Blob) (x : ℚ) : Encrypts b x ↔ ∃ d, b = .encoded ⟨x, d⟩ := by
  cases b with
  | encoded ct =>
    obtain ⟨v, d⟩ := ct
    simp [Encrypts, DecryptCKKS, unmarshallIntoNewCiphertext]
  | malformed bytes =>
    simp [Encrypts, DecryptCKKS, unmarshallIntoNewCiphertext]

/-- An array of well-formed blobs is the serialization of a list of ciphertexts. -/
theorem encryptsAll_iff (array : List Blob) (xs : List ℚ) :
    EncryptsAll array xs ↔
      ∃ cts : List Ciphertext, array = cts.map Blob.encoded ∧ cts.map Ciphertext.value = xs := by
  constructor
  · intro h
    induction h with
    | nil => exact ⟨[], rfl, rfl⟩
    | @cons b x bs xs' hb _ ih =>
      obtain ⟨cts, h1, h2⟩ := ih
      obtain ⟨d, hd⟩ := (encrypts_iff b x).1 hb
      exact ⟨⟨x, d⟩ :: cts, by simp [hd, h1], by simp [h2]⟩
  · rintro ⟨cts, rfl, rfl⟩
    induction cts with
    | nil => exact List.Forall₂.nil
    | cons c cts ih =>
      exact List.Forall₂.cons ((encrypts_iff _ _).2 ⟨c.degree, rfl⟩) ih

/-- A loop whose body returns normally on every element returns normally; its final
accumulator is the pure fold of what the body returns. -/
theorem foldlM_map_result {α β γ : Type} (f : β → α → Run β) (φ : γ → α) (g : β → γ → β)
    (ys : List γ) (h : ∀ b, ∀ y ∈ ys, (f b (φ y)).result = .ok (g b y)) (init : β) :
    ((ys.map φ).foldlM f init).result = .ok (ys.foldl g init) := by
  induction ys generalizing init with
  | nil => simp
  | cons y ys ih =>
    have hy := h init y (List.mem_cons_self y ys)
    have ih2 := ih (fun b z hz => h b z (List.mem_cons_of_mem y hz)) (g init y)
    simp only [List.map_cons, List.foldlM_cons, Run.bind_eq, List.foldl_cons]
    rw [Run.result_andThen_ok hy, ih2]

/-- Plaintext and degree of an accumulator after a ciphertext of plaintext `t y` and degree
`d y` has been added to it for every `y` of a list. -/
theorem foldl_accumulate_eq {γ : Type} (t : γ → ℚ) (d : γ → Nat) (ys : List γ)
    (acc : Ciphertext) :
    ys.foldl (fun a y => (⟨a.value + t y, max a.degree (d y)⟩ : Ciphertext)) acc
      = ⟨acc.value + (ys.map t).sum, (ys.map d).foldl max acc.degree⟩ := by
  induction ys generalizing acc with
  | nil => simp
  | cons y ys ih => simp [ih, add_assoc]

/-! ### The primitive layer on decodable blobs -/

@[simp] theorem unmarshall_encoded (c : Ciphertext) :
    unmarshallIntoNewCiphertext (.encoded c) = Run.ret c := rfl

@[simp] theorem unmarshall_malformed (bytes : List Nat) :
    unmarshallIntoNewCiphertext (.malformed bytes) = Run.fail .deserialization := rfl

@[simp] theorem DecryptCKKS_encoded (c : Ciphertext) :
    DecryptCKKS (.encoded c) = .ok c.value := rfl

@[simp] theorem index_zero_cons {α : Type} (a : α) (as : List α) :
    index (a :: as) 0 = Run.ret a := rfl

@[simp] theorem index_zero_map_cons {α β : Type} (φ : α → β) (a : α) (as : List α) :
    index ((a :: as).map φ) 0 = Run.ret (φ a) := rfl

theorem MakeZeroCiphertext_encoded (c : Ciphertext) :
    MakeZeroCiphertext (.encoded c)
      = ⟨[.sub c c], .ok ⟨c.value - c.value, max c.degree c.degree⟩⟩ := by
  simp [MakeZeroCiphertext, CkksEvaluator.SubNew]

theorem Subtract_encoded (a b : Ciphertext) :
    Subtract (.encoded a) (.encoded b)
      = ⟨[.sub a b], .ok (.encoded ⟨a.value - b.value, max a.degree b.degree⟩)⟩ := by
  simp [Subtract, CkksEvaluator.SubNew, MarshalBinary]

theorem SumOf2_encoded (a b : Ciphertext) :
    SumOf2 (.encoded a) (.encoded b)
      = ⟨[.add a b], .ok (.encoded ⟨a.value + b.value, max a.degree b.degree⟩)⟩ := by
  simp [SumOf2, CkksEvaluator.AddNew, MarshalBinary]

theorem MultOf2_encoded (a b : Ciphertext) :
    MultOf2 (.encoded a) (.encoded b)
      = ⟨[.mul a b], .ok (.encoded ⟨a.value * b.value, a.degree + b.degree⟩)⟩ := by
  simp [MultOf2, CkksEvaluator.MulNew, MarshalBinary]

theorem Pow2_encoded (a : Ciphertext) :
    Pow2 (.encoded a)
      = ⟨[.mul a a], .ok (.encoded ⟨a.value * a.value, a.degree + a.degree⟩)⟩ := by
  simp [Pow2, CkksEvaluator.MulNew, MarshalBinary]

theorem SubtractConst_encoded (a : Ciphertext) (k : ℚ) :
    SubtractConst (.encoded a) k
      = ⟨[.addConst a (-k)], .ok (.encoded ⟨a.value + -k, a.degree⟩)⟩ := by
  simp [SubtractConst, CkksEvaluator.AddConstNew, MarshalBinary]

theorem MultByConst_encoded (a : Ciphertext) (k : ℚ) :
    MultByConst (.encoded a) k
      = ⟨[.multByConst a k], .ok (.encoded ⟨a.value * k, a.degree⟩)⟩ := by
  simp [MultByConst, CkksEvaluator.MultByConstNew, MarshalBinary]

theorem DivByConst_encoded (a : Ciphertext) (k : ℚ) :
    DivByConst (.encoded a) k
      = ⟨[.multByConst a (1 / k)], .ok (.encoded ⟨a.value * (1 / k), a.degree⟩)⟩ := by
  simp [DivByConst, CkksEvaluator.MultByConstNew, MarshalBinary]

/-! ### Sum and mean -/

/-- The accumulation loop of `ArraySum` on decodable blobs. -/
theorem sumLoop_result (cts : List Ciphertext) (acc : Ciphertext) :
    ((cts.map Blob.encoded).foldlM
      (fun sumCiphertext encryptedData => do
        let ciphertext ← unmarshallIntoNewCiphertext encryptedData
        CkksEvaluator.Add sumCiphertext ciphertext) acc).result
      = .ok ⟨acc.value + (cts.map Ciphertext.value).sum,
          (cts.map Ciphertext.degree).foldl max acc.degree⟩ := by
  rw [foldlM_map_result _ Blob.encoded
    (fun a c => (⟨a.value + c.value, max a.degree c.degree⟩ : Ciphertext)) cts
    (fun b y _ => by simp [CkksEvaluator.Add, CkksEvaluator.AddNew]),
    foldl_accumulate_eq Ciphertext.value Ciphertext.degree]

/-- What `ArraySum` returns on a non-empty array of decodable blobs. -/
theorem ArraySum_encoded (c : Ciphertext) (cts : List Ciphertext) :
    (ArraySum ((c :: cts).map Blob.encoded)).result
      = .ok (.encoded ⟨((c :: cts).map Ciphertext.value).sum,
          ((c :: cts).map Ciphertext.degree).foldl max c.degree⟩) := by
  have h := sumLoop_result (c :: cts) ⟨c.value - c.value, max c.degree c.degree⟩
  have hlen : ¬ ((c :: cts).map Blob.encoded).length = 0 := by simp
  simp only [ArraySum, hlen, if_false, index_zero_map_cons, MakeZeroCiphertext_encoded,
    Run.bind_eq, Run.ret_andThen, Run.step_andThen]
  simp only [Run.bind_eq] at h
  rw [Run.result_andThen_ok h]
  simp [MarshalBinary]

/-- What `ArrayMean` returns on a non-empty array of decodable blobs. -/
theorem ArrayMean_encoded (c : Ciphertext) (cts : List Ciphertext) :
    (ArrayMean ((c :: cts).map Blob.encoded)).result
      = .ok (.encoded (meanCiphertext (c :: cts))) := by
  show _ = Except.ok (Blob.encoded
    ⟨((c :: cts).map Ciphertext.value).sum * (1 / ((c :: cts).length : ℚ)),
      ((c :: cts).map Ciphertext.degree).foldl max c.degree⟩)
  simp only [ArrayMean, Run.bind_eq]
  rw [Run.result_andThen_ok (ArraySum_encoded c cts)]
  simp [CkksEvaluator.MultByConstNew, MarshalBinary]

/-- The `add` calls of the accumulation loop receive the elements one by one, in order. -/
theorem sumLoop_addends (cts : List Ciphertext) (acc : Ciphertext) :
    ((cts.map Blob.encoded).foldlM
      (fun sumCiphertext encryptedData => do
        let ciphertext ← unmarshallIntoNewCiphertext encryptedData
        CkksEvaluator.Add sumCiphertext ciphertext) acc).trace.filterMap EvalStep.addend
      = cts := by
  induction cts generalizing acc with
  | nil => simp
  | cons c cts ih =>
    have ih2 := ih ⟨acc.value + c.value, max acc.degree c.degree⟩
    simp only [Run.bind_eq] at ih2
    simp only [List.map_cons, List.foldlM_cons, Run.bind_eq, unmarshall_encoded,
      Run.ret_andThen, CkksEvaluator.Add, CkksEvaluator.AddNew, Run.step_andThen,
      List.filterMap_append]
    simp only [CkksEvaluator.Add, CkksEvaluator.AddNew] at ih2
    rw [ih2]
    simp [EvalStep.addend]

/-! ### Moving average -/

theorem ArrayMean_encoded_of_ne_nil (cts : List Ciphertext) (hne : cts ≠ []) :
    (ArrayMean (cts.map Blob.encoded)).result = .ok (.encoded (meanCiphertext cts)) := by
  cases cts with
  | nil => exact absurd rfl hne
  | cons c cts => exact ArrayMean_encoded c cts

/-- Slicing a window that lies inside the array. -/
theorem slice_map_encoded (cts : List Ciphertext) (i : Nat) (w : Int) (hw : 0 ≤ w)
    (hi : (i : Int) + w ≤ (cts.length : Int)) :
    slice (cts.map Blob.encoded) (i : Int) ((i : Int) + w)
      = Run.ret (((cts.drop i).take w.toNat).map Blob.encoded) := by
  have hc : (0 : Int) ≤ (i : Int) ∧ (i : Int) ≤ (i : Int) + w
      ∧ (i : Int) + w ≤ ((cts.map Blob.encoded).length : Int) := by
    refine ⟨Int.ofNat_nonneg i, by omega, by simpa using hi⟩
  simp only [slice, hc, and_self, if_true]
  simp

/-- Filling the entries `0 .. k-1` of a slice one by one. -/
theorem foldl_set_range {α : Type} (F : Nat → α) (r : List α) :
    ∀ k : Nat, k ≤ r.length →
      (List.range k).foldl (fun r i => r.set i (F i)) r = (List.range k).map F ++ r.drop k
  | 0, _ => by simp
  | k + 1, hk => by
    have hk2 : k < r.length := hk
    have ih := foldl_set_range F r k (Nat.le_of_lt hk2)
    rw [List.range_succ, List.foldl_append, ih, List.foldl_cons, List.foldl_nil,
      List.set_append_right _ _ (by simp), List.map_append, List.append_assoc,
      List.drop_eq_getElem_cons hk2]
    simp only [List.length_map, List.length_range, Nat.sub_self, List.set_cons_zero,
      List.map_cons, List.map_nil, List.singleton_append]

/-- The loop of `MovingAverage` when every window lies inside an array of decodable blobs. -/
theorem movingLoop_result (cts : List Ciphertext) (w : Int) (hw : 1 ≤ w) (n : Nat)
    (hn : (n : Int) + w ≤ (cts.length : Int)) (r : List Blob) (hr : r.length = n) :
    ((List.range n).foldlM
      (fun (r : List Blob) (i : Nat) => do
        let window ← slice (cts.map Blob.encoded) (i : Int) ((i : Int) + w)
        let mean ← ArrayMean window
        Run.ret (r.set i mean)) r).result
      = .ok ((List.range n).map (fun i =>
          Blob.encoded (meanCiphertext ((cts.drop i).take w.toNat)))) := by
  have h := foldlM_map_result
    (fun (r : List Blob) (i : Nat) => do
        let window ← slice (cts.map Blob.encoded) (i : Int) ((i : Int) + w)
        let mean ← ArrayMean window
        Run.ret (r.set i mean))
    id
    (fun r i => r.set i (Blob.encoded (meanCiphertext ((cts.drop i).take w.toNat))))
    (List.range n)
    (fun b i hi => by
      have h1 : i < n := List.mem_range.1 hi
      have h2 : (i : Int) + w ≤ (cts.length : Int) := by omega
      have h3 : (cts.drop i).take w.toNat ≠ [] := by
        intro h0
        have h4 := congrArg List.length h0
        simp at h4
        omega
      simp only [id, Run.bind_eq, slice_map_encoded cts i w (by omega) h2, Run.ret_andThen]
      rw [Run.result_andThen_ok (ArrayMean_encoded_of_ne_nil _ h3)]
      simp)
    r
  rw [List.map_id] at h
  rw [h, foldl_set_range _ r n (by omega), List.drop_eq_nil_of_le (by omega),
    List.append_nil]

/-- What `MovingAverage` returns on decodable blobs for a window size from 1 to the length
of the array. -/
theorem MovingAverage_encoded (cts : List Ciphertext) (w : Int) (h1 : 1 ≤ w)
    (h2 : w ≤ (cts.length : Int)) :
    (MovingAverage (cts.map Blob.encoded) w).result
      = .ok ((List.range ((cts.length : Int) - w).toNat).map (fun i =>
          Blob.encoded (meanCiphertext ((cts.drop i).take w.toNat)))) := by
  have hn : ¬ ((cts.length : Int) - w < 0) := by omega
  have h := movingLoop_result cts w h1 ((cts.length : Int) - w).toNat (by omega)
    (List.replicate ((cts.length : Int) - w).toNat (Blob.malformed [])) (by simp)
  simp only [Run.bind_eq] at h
  simp only [MovingAverage, makeSlice, List.length_map, hn, if_false, Run.bind_eq,
    Run.ret_andThen]
  exact h

/-- For a window size of 0 the first window is empty and `ArrayMean` rejects it. -/
theorem MovingAverage_zero_window (array : List Blob) (hne : array ≠ []) :
    (MovingAverage array 0).result = .error .emptyInput := by
  cases array with
  | nil => exact absurd rfl hne
  | cons b bs =>
    have hn : ¬ (((b :: bs).length : Int) - 0 < 0) := by simp; omega
    have hlen : (((b :: bs).length : Int) - 0).toNat = bs.length + 1 := by simp
    have hs : slice (b :: bs) ((0 : Nat) : Int) (((0 : Nat) : Int) + 0) = Run.ret [] := by
      have hc : (0 : Int) ≤ ((0 : Nat) : Int) ∧ ((0 : Nat) : Int) ≤ ((0 : Nat) : Int) + 0
          ∧ ((0 : Nat) : Int) + 0 ≤ ((b :: bs).length : Int) :=
        ⟨by simp, by simp, by simp; omega⟩
      simp only [slice, hc, and_self, if_true]
      simp
    simp only [MovingAverage, makeSlice, hn, if_false, Run.bind_eq, Run.ret_andThen, hlen,
      List.range_succ_eq_map, List.foldlM_cons, hs]
    exact Run.result_andThen_error (Run.result_andThen_error rfl _) _

/-- With a window larger than the array the allocation `make([][]byte, len - windowSize)`
aborts. -/
theorem MovingAverage_panics_of_length_lt (array : List Blob) (w : Int)
    (h : (array.length : Int) < w) :
    MovingAverage array w = ⟨[], .error .panic⟩ := by
  have hn : (array.length : Int) - w < 0 := by omega
  simp only [MovingAverage, makeSlice, hn, if_true, Run.bind_eq, Run.fail_andThen]
  rfl

/-- A window that lies inside the array has `windowSize` elements. -/
theorem window_length (cts : List Ciphertext) (i : Nat) (w : Int) (hw : 0 ≤ w)
    (hi : (i : Int) + w ≤ (cts.length : Int)) :
    (((cts.drop i).take w.toNat).length : ℚ) = (w : ℚ) := by
  have h : ((cts.drop i).take w.toNat).length = w.toNat := by
    simp only [List.length_take, List.length_drop]
    omega
  have h2 : (w.toNat : Int) = w := Int.toNat_of_nonneg hw
  rw [h]
  exact_mod_cast h2

/-! ### Variance -/

/-- The accumulation loop of `Variance` on decodable blobs, `m` being the decoded mean. -/
theorem varianceLoop_result (cts : List Ciphertext) (m acc : Ciphertext) :
    ((cts.map Blob.encoded).foldlM
      (fun ciphertextSum encryptedData => do
        let sub ← Subtract encryptedData (.encoded m)
        let pow ← Pow2 sub
        let ciphertextPow ← unmarshallIntoNewCiphertext pow
        let ciphertextPow ← CkksEvaluator.Relinearize ciphertextPow
        CkksEvaluator.Add ciphertextSum ciphertextPow) acc).result
      = .ok ⟨acc.value + (cts.map (fun c => (c.value - m.value) * (c.value - m.value))).sum,
          (cts.map (fun _ => 1)).foldl max acc.degree⟩ := by
  rw [foldlM_map_result _ Blob.encoded
    (fun a c => (⟨a.value + (c.value - m.value) * (c.value - m.value),
      max a.degree 1⟩ : Ciphertext)) cts
    (fun b y _ => by
      simp [Subtract_encoded, Pow2_encoded, CkksEvaluator.Relinearize, CkksEvaluator.Add,
        CkksEvaluator.AddNew]),
    foldl_accumulate_eq (fun c : Ciphertext => (c.value - m.value) * (c.value - m.value))
      (fun _ => 1)]

/-- What `Variance` returns on a non-empty array of decodable blobs. -/
theorem Variance_encoded (c : Ciphertext) (cts : List Ciphertext) :
    (Variance ((c :: cts).map Blob.encoded)).result
      = .ok (.encoded
          ⟨(c.value - c.value + ((c :: cts).map (fun x =>
              (x.value - (meanCiphertext (c :: cts)).value)
              * (x.value - (meanCiphertext (c :: cts)).value))).sum)
            * (1 / ((c :: cts).length : ℚ)),
          ((c :: cts).map (fun _ => 1)).foldl max (max c.degree c.degree)⟩) := by
  have hmean := ArrayMean_encoded c cts
  have h := varianceLoop_result (c :: cts) (meanCiphertext (c :: cts))
    ⟨c.value - c.value, max c.degree c.degree⟩
  have hlen : ¬ ((c :: cts).map Blob.encoded).length = 0 := by simp
  simp only [Run.bind_eq] at h
  simp only [Variance, hlen, if_false, Run.bind_eq]
  rw [Run.result_andThen_ok hmean]
  simp only [index_zero_map_cons, MakeZeroCiphertext_encoded, Run.ret_andThen,
    Run.step_andThen]
  rw [Run.result_andThen_ok h]
  simp [MarshalBinary, DivByConst_encoded]

/-! ### Covariance -/

theorem index_map_encoded (cts : List Ciphertext) (i : Nat) (h : i < cts.length) :
    index (cts.map Blob.encoded) i = Run.ret (.encoded (cts.getD i ⟨0, 0⟩)) := by
  simp [index, List.getD, h]

/-- Reading two lists of equal length index by index is reading their `zip`. -/
theorem range_map_getD_eq_zip {γ : Type} (F : Ciphertext → Ciphertext → γ) :
    ∀ (as bs : List Ciphertext), as.length = bs.length →
      (List.range as.length).map (fun i => F (as.getD i ⟨0, 0⟩) (bs.getD i ⟨0, 0⟩))
        = (List.zip as bs).map (fun p => F p.1 p.2)
  | [], _, _ => by simp
  | a :: as, [], h => by simp at h
  | a :: as, b :: bs, h => by
    have ih := range_map_getD_eq_zip F as bs (by simpa using h)
    simpa [List.range_succ_eq_map, List.map_map, Function.comp_def] using ih

/-- The accumulation loop of `Covariance` on decodable blobs, `m1` and `m2` being the
decoded means. -/
theorem covarianceLoop_result (cts1 cts2 : List Ciphertext) (hlen : cts1.length = cts2.length)
    (m1 m2 acc : Ciphertext) :
    ((List.range (cts1.map Blob.encoded).length).foldlM
      (fun ciphertextSum i => do
        let x ← index (cts1.map Blob.encoded) i
        let sub1 ← Subtract x (.encoded m1)
        let y ← index (cts2.map Blob.encoded) i
        let sub2 ← Subtract y (.encoded m2)
        let mult ← MultOf2 sub1 sub2
        let ciphertextMult ← unmarshallIntoNewCiphertext mult
        let ciphertextMult ← CkksEvaluator.Relinearize ciphertextMult
        CkksEvaluator.Add ciphertextSum ciphertextMult) acc).result
      = .ok ⟨acc.value + ((List.zip cts1 cts2).map (fun p =>
            (p.1.value - m1.value) * (p.2.value - m2.value))).sum,
          ((List.range cts1.length).map (fun _ => 1)).foldl max acc.degree⟩ := by
  have h := foldlM_map_result
    (fun ciphertextSum i => do
        let x ← index (cts1.map Blob.encoded) i
        let sub1 ← Subtract x (.encoded m1)
        let y ← index (cts2.map Blob.encoded) i
        let sub2 ← Subtract y (.encoded m2)
        let mult ← MultOf2 sub1 sub2
        let ciphertextMult ← unmarshallIntoNewCiphertext mult
        let ciphertextMult ← CkksEvaluator.Relinearize ciphertextMult
        CkksEvaluator.Add ciphertextSum ciphertextMult)
    id
    (fun a i => (⟨a.value + ((cts1.getD i ⟨0, 0⟩).value - m1.value)
      * ((cts2.getD i ⟨0, 0⟩).value - m2.value), max a.degree 1⟩ : Ciphertext))
    (List.range cts1.length)
    (fun b i hi => by
      have h1 : i < cts1.length := List.mem_range.1 hi
      have h2 : i < cts2.length := hlen ▸ h1
      simp [index_map_encoded, h1, h2, Subtract_encoded, MultOf2_encoded,
        CkksEvaluator.Relinearize, CkksEvaluator.Add, CkksEvaluator.AddNew])
    acc
  rw [List.map_id] at h
  rw [List.length_map, h, foldl_accumulate_eq (fun i : Nat =>
      ((cts1.getD i ⟨0, 0⟩).value - m1.value) * ((cts2.getD i ⟨0, 0⟩).value - m2.value))
      (fun _ => 1),
    range_map_getD_eq_zip (fun a b => (a.value - m1.value) * (b.value - m2.value))
      cts1 cts2 hlen]

/-- What `Covariance` returns on two non-empty arrays of decodable blobs of equal length. -/
theorem Covariance_encoded (c1 c2 : Ciphertext) (cts1 cts2 : List Ciphertext)
    (hlen : cts1.length = cts2.length) :
    (Covariance ((c1 :: cts1).map Blob.encoded) ((c2 :: cts2).map Blob.encoded)).result
      = .ok (.encoded
          ⟨(c1.value - c1.value + ((List.zip (c1 :: cts1) (c2 :: cts2)).map (fun p =>
              (p.1.value - (meanCiphertext (c1 :: cts1)).value)
              * (p.2.value - (meanCiphertext (c2 :: cts2)).value))).sum)
            * (1 / ((c1 :: cts1).length : ℚ)),
          ((List.range (c1 :: cts1).length).map (fun _ => 1)).foldl max
            (max c1.degree c1.degree)⟩) := by
  have hmean1 := ArrayMean_encoded c1 cts1
  have hmean2 := ArrayMean_encoded c2 cts2
  have hlen2 : (c1 :: cts1).length = (c2 :: cts2).length := by simp [hlen]
  have h := covarianceLoop_result (c1 :: cts1) (c2 :: cts2) hlen2
    (meanCiphertext (c1 :: cts1)) (meanCiphertext (c2 :: cts2))
    ⟨c1.value - c1.value, max c1.degree c1.degree⟩
  have hne : ¬ ((c1 :: cts1).map Blob.encoded).length
      ≠ ((c2 :: cts2).map Blob.encoded).length := by simp [hlen]
  have hpos : ¬ (((c1 :: cts1).map Blob.encoded).length = 0
      ∨ ((c2 :: cts2).map Blob.encoded).length = 0) := by simp
  simp only [Run.bind_eq] at h
  simp only [Covariance, hne, hpos, if_false, Run.bind_eq]
  rw [Run.result_andThen_ok hmean1, Run.result_andThen_ok hmean2]
  simp only [index_zero_map_cons, MakeZeroCiphertext_encoded, Run.ret_andThen,
    Run.step_andThen]
  rw [Run.result_andThen_ok h]
  simp [MarshalBinary, DivByConst_encoded]

/-! ### Arithmetic progression -/

theorem ArithmeticProgressionElementN_encoded (f d n : Ciphertext) :
    (ArithmeticProgressionElementN (.encoded f) (.encoded d) (.encoded n)).result
      = .ok (.encoded ⟨f.value + d.value * (n.value + -1),
          max f.degree (d.degree + n.degree)⟩) := by
  simp [ArithmeticProgressionElementN, SubtractConst_encoded, MultOf2_encoded, SumOf2_encoded]

theorem ArithmeticProgressionSum_encoded (f d n : Ciphertext) :
    (ArithmeticProgressionSum (.encoded f) (.encoded d) (.encoded n)).result
      = .ok (.encoded ⟨n.value * (f.value + (f.value + d.value * (n.value + -1))) * (1 / 2),
          n.degree + 1⟩) := by
  simp only [ArithmeticProgressionSum, Run.bind_eq]
  rw [Run.result_andThen_ok (ArithmeticProgressionElementN_encoded f d n)]
  simp [SumOf2_encoded, MultOf2_encoded, DivByConst_encoded, CkksEvaluator.Relinearize,
    MarshalBinary]

/-! ## The claims -/

/-- C1: on a non-empty array of well-formed blobs with plaintexts `xs`, `ArraySum` returns
a blob that decrypts to the sum of `xs`. The seed `MakeZeroCiphertext(array[0])` encrypts 0,
and the `add` calls of the run receive exactly the elements of the array, element 0
included, each once and in order. -/
theorem ArraySum_decrypts_to_sum (array : List Blob) (xs : List ℚ)
    (hne : array ≠ []) (hxs : EncryptsAll array xs) :
    (∃ seed, ((index array 0).andThen MakeZeroCiphertext).result = .ok seed ∧ seed.value = 0) ∧
    ((ArraySum array).trace.filterMap EvalStep.addend).map Blob.encoded = array ∧
    ∃ out, (ArraySum array).result = .ok out ∧ DecryptCKKS out = .ok xs.sum := by
  obtain ⟨cts, rfl, rfl⟩ := (encryptsAll_iff array xs).1 hxs
  cases cts with
  | nil => exact absurd rfl hne
  | cons c cts =>
    refine ⟨⟨⟨c.value - c.value, max c.degree c.degree⟩, ?_, sub_self _⟩, ?_,
      ⟨_, ArraySum_encoded c cts, rfl⟩⟩
    · simp [MakeZeroCiphertext_encoded]
    · have h := sumLoop_result (c :: cts) ⟨c.value - c.value, max c.degree c.degree⟩
      have ht := sumLoop_addends (c :: cts) ⟨c.value - c.value, max c.degree c.degree⟩
      have hlen : ¬ ((c :: cts).map Blob.encoded).length = 0 := by simp
      simp only [Run.bind_eq] at h ht
      simp only [ArraySum, hlen, if_false, index_zero_map_cons, MakeZeroCiphertext_encoded,
        Run.bind_eq, Run.ret_andThen, Run.step_andThen]
      rw [Run.trace_andThen_ok h, List.filterMap_append, List.filterMap_append, ht]
      simp [EvalStep.addend, MarshalBinary]

/-- Instance of C1: the array encrypting 1, 2, 4 sums to 7. -/
theorem ArraySum_decrypts_to_sum_witness :
    EncryptsAll [.encoded ⟨1, 1⟩, .encoded ⟨2, 1⟩, .encoded ⟨4, 1⟩] [1, 2, 4] ∧
    ∃ out, (ArraySum [.encoded ⟨1, 1⟩, .encoded ⟨2, 1⟩, .encoded ⟨4, 1⟩]).result = .ok out ∧
      DecryptCKKS out = .ok 7 := by
  have hE : EncryptsAll [.encoded ⟨1, 1⟩, .encoded ⟨2, 1⟩, .encoded ⟨4, 1⟩] [1, 2, 4] :=
    .cons rfl (.cons rfl (.cons rfl .nil))
  obtain ⟨_, _, out, h1, h2⟩ := ArraySum_decrypts_to_sum _ _ (by simp) hE
  exact ⟨hE, out, h1, by rw [h2]; norm_num⟩

/-- C2: on a non-empty array of `N` well-formed blobs with plaintexts `xs`, `ArrayMean`
returns a blob that decrypts to `(Σ xs) / N`; the run is that of `MultByConst` applied to the
result of `ArraySum` with the constant `1 / N`. -/
theorem ArrayMean_decrypts_to_mean (array : List Blob) (xs : List ℚ)
    (hne : array ≠ []) (hxs : EncryptsAll array xs) :
    ArrayMean array
      = (ArraySum array).andThen (fun sum => MultByConst sum (1 / (array.length : ℚ))) ∧
    ∃ out, (ArrayMean array).result = .ok out ∧
      DecryptCKKS out = .ok (xs.sum / (array.length : ℚ)) := by
  obtain ⟨cts, rfl, rfl⟩ := (encryptsAll_iff array xs).1 hxs
  cases cts with
  | nil => exact absurd rfl hne
  | cons c cts =>
    refine ⟨rfl, _, ArrayMean_encoded c cts, ?_⟩
    simp [meanCiphertext, div_eq_mul_inv]

/-- Instance of C2: the mean of the array encrypting 1, 2, 4 is 7/3. -/
theorem ArrayMean_decrypts_to_mean_witness :
    EncryptsAll [.encoded ⟨1, 1⟩, .encoded ⟨2, 1⟩, .encoded ⟨4, 1⟩] [1, 2, 4] ∧
    ∃ out, (ArrayMean [.encoded ⟨1, 1⟩, .encoded ⟨2, 1⟩, .encoded ⟨4, 1⟩]).result = .ok out ∧
      DecryptCKKS out = .ok (7 / 3) := by
  have hE : EncryptsAll [.encoded ⟨1, 1⟩, .encoded ⟨2, 1⟩, .encoded ⟨4, 1⟩] [1, 2, 4] :=
    .cons rfl (.cons rfl (.cons rfl .nil))
  obtain ⟨_, out, h1, h2⟩ := ArrayMean_decrypts_to_mean _ _ (by simp) hE
  exact ⟨hE, out, h1, by rw [h2]; norm_num⟩

/-- C3: on a non-empty array of `N` well-formed blobs with plaintexts `xs` and mean
`m = (Σ xs) / N`, `Variance` returns a blob that decrypts to the population variance
`(Σ (x - m)²) / N`. -/
theorem Variance_decrypts_to_population_variance (array : List Blob) (xs : List ℚ)
    (hne : array ≠ []) (hxs : EncryptsAll array xs) :
    ∃ out, (Variance array).result = .ok out ∧
      DecryptCKKS out
        = .ok ((xs.map (fun x => (x - xs.sum / (array.length : ℚ)) ^ 2)).sum
            / (array.length : ℚ)) := by
  obtain ⟨cts, rfl, rfl⟩ := (encryptsAll_iff array xs).1 hxs
  cases cts with
  | nil => exact absurd rfl hne
  | cons c cts =>
    refine ⟨_, Variance_encoded c cts, ?_⟩
    simp only [DecryptCKKS_encoded, meanCiphertext, sub_self, zero_add, List.map_map,
      List.length_map, div_eq_mul_inv, one_mul, pow_two]
    rfl

/-- Instance of C3: the variance of the array encrypting 1, 2, 4, 9 is 19/2. -/
theorem Variance_decrypts_to_population_variance_witness :
    EncryptsAll [.encoded ⟨1, 1⟩, .encoded ⟨2, 1⟩, .encoded ⟨4, 1⟩, .encoded ⟨9, 1⟩]
      [1, 2, 4, 9] ∧
    ∃ out, (Variance [.encoded ⟨1, 1⟩, .encoded ⟨2, 1⟩, .encoded ⟨4, 1⟩,
        .encoded ⟨9, 1⟩]).result = .ok out ∧
      DecryptCKKS out = .ok (19 / 2) := by
  have hE : EncryptsAll [.encoded ⟨1, 1⟩, .encoded ⟨2, 1⟩, .encoded ⟨4, 1⟩, .encoded ⟨9, 1⟩]
      [1, 2, 4, 9] :=
    .cons rfl (.cons rfl (.cons rfl (.cons rfl .nil)))
  obtain ⟨out, h1, h2⟩ := Variance_decrypts_to_population_variance _ _ (by simp) hE
  exact ⟨hE, out, h1, by rw [h2]; norm_num⟩

/-- C4: on two non-empty arrays of equal length `N` of well-formed blobs with plaintexts
`xs` and `ys`, `Covariance` returns a blob that decrypts to the population covariance
`(Σ (x_i - meanX) * (y_i - meanY)) / N`. -/
theorem Covariance_decrypts_to_population_covariance (array1 array2 : List Blob)
    (xs ys : List ℚ) (hne : array1 ≠ []) (hlen : array1.length = array2.length)
    (hxs : EncryptsAll array1 xs) (hys : EncryptsAll array2 ys) :
    ∃ out, (Covariance array1 array2).result = .ok out ∧
      DecryptCKKS out
        = .ok (((List.zip xs ys).map (fun p =>
              (p.1 - xs.sum / (array1.length : ℚ)) * (p.2 - ys.sum / (array1.length : ℚ)))).sum
            / (array1.length : ℚ)) := by
  obtain ⟨cts1, rfl, rfl⟩ := (encryptsAll_iff array1 xs).1 hxs
  obtain ⟨cts2, rfl, rfl⟩ := (encryptsAll_iff array2 ys).1 hys
  cases cts1 with
  | nil => exact absurd rfl hne
  | cons c1 cts1 =>
    cases cts2 with
    | nil => simp at hlen
    | cons c2 cts2 =>
      have hl : cts1.length = cts2.length := by simpa using hlen
      refine ⟨_, Covariance_encoded c1 c2 cts1 cts2 hl, ?_⟩
      simp only [DecryptCKKS_encoded, meanCiphertext, sub_self, zero_add, List.length_map,
        List.length_cons, div_eq_mul_inv, one_mul, hl, ← List.map_cons, List.zip_map,
        List.map_map]
      rfl

/-- Instance of C4: the covariance of the arrays encrypting 1, 2, 4, 9 and 1, 3, 5, 2 is
1/4. -/
theorem Covariance_decrypts_to_population_covariance_witness :
    EncryptsAll [.encoded ⟨1, 1⟩, .encoded ⟨2, 1⟩, .encoded ⟨4, 1⟩, .encoded ⟨9, 1⟩]
      [1, 2, 4, 9] ∧
    EncryptsAll [.encoded ⟨1, 1⟩, .encoded ⟨3, 1⟩, .encoded ⟨5, 1⟩, .encoded ⟨2, 1⟩]
      [1, 3, 5, 2] ∧
    ∃ out, (Covariance
        [.encoded ⟨1, 1⟩, .encoded ⟨2, 1⟩, .encoded ⟨4, 1⟩, .encoded ⟨9, 1⟩]
        [.encoded ⟨1, 1⟩, .encoded ⟨3, 1⟩, .encoded ⟨5, 1⟩, .encoded ⟨2, 1⟩]).result
          = .ok out ∧
      DecryptCKKS out = .ok (1 / 4) := by
  have hX : EncryptsAll [.encoded ⟨1, 1⟩, .encoded ⟨2, 1⟩, .encoded ⟨4, 1⟩, .encoded ⟨9, 1⟩]
      [1, 2, 4, 9] :=
    .cons rfl (.cons rfl (.cons rfl (.cons rfl .nil)))
  have hY : EncryptsAll [.encoded ⟨1, 1⟩, .encoded ⟨3, 1⟩, .encoded ⟨5, 1⟩, .encoded ⟨2, 1⟩]
      [1, 3, 5, 2] :=
    .cons rfl (.cons rfl (.cons rfl (.cons rfl .nil)))
  obtain ⟨out, h1, h2⟩ :=
    Covariance_decrypts_to_population_covariance
      [.encoded ⟨1, 1⟩, .encoded ⟨2, 1⟩, .encoded ⟨4, 1⟩, .encoded ⟨9, 1⟩]
      [.encoded ⟨1, 1⟩, .encoded ⟨3, 1⟩, .encoded ⟨5, 1⟩, .encoded ⟨2, 1⟩]
      [1, 2, 4, 9] [1, 3, 5, 2] (by simp) rfl hX hY
  exact ⟨hX, hY, out, h1, by rw [h2]; norm_num⟩

/-- C5 as stated fails: with window size 0 on a one-element array of well-formed blobs,
`MovingAverage` hands the empty window `array[0:0]` to `ArrayMean` and returns the
empty-input error instead of `max(0, 1 - 0) = 1` elements. -/
theorem MovingAverage_length_counterexample :
    EncryptsAll [.encoded ⟨1, 1⟩] [1] ∧ (0 : Int) ≤ 0 ∧
    (MovingAverage [.encoded ⟨1, 1⟩] 0).result = .error .emptyInput ∧
    ¬ ∃ r, (MovingAverage [.encoded ⟨1, 1⟩] 0).result = .ok r ∧
      (r.length : Int) = max 0 ((([.encoded ⟨1, 1⟩] : List Blob).length : Int) - 0) := by
  have h : (MovingAverage [.encoded ⟨1, 1⟩] 0).result = .error .emptyInput :=
    MovingAverage_zero_window _ (by simp)
  refine ⟨.cons rfl .nil, le_refl 0, h, ?_⟩
  rintro ⟨r, hr, _⟩
  rw [h] at hr
  cases hr

/-- C5, amended: on an array of well-formed blobs and a window size `w` with
`0 ≤ w ≤ len(array)`, `MovingAverage` returns exactly `max(0, len(array) - w)` elements when
`1 ≤ w` or the array is empty; for `w = 0` on a non-empty array it returns the empty-input
error of `ArraySum`. -/
theorem MovingAverage_length (array : List Blob) (xs : List ℚ) (w : Int)
    (hxs : EncryptsAll array xs) (hw : 0 ≤ w) (hle : w ≤ (array.length : Int)) :
    (1 ≤ w ∨ array = [] →
      ∃ r, (MovingAverage array w).result = .ok r ∧
        (r.length : Int) = max 0 ((array.length : Int) - w)) ∧
    (w = 0 → array ≠ [] → (MovingAverage array w).result = .error .emptyInput) := by
  refine ⟨?_, fun h0 hne => h0 ▸ MovingAverage_zero_window array hne⟩
  rintro (h1 | rfl)
  · obtain ⟨cts, rfl, rfl⟩ := (encryptsAll_iff array xs).1 hxs
    rw [List.length_map] at hle ⊢
    refine ⟨_, MovingAverage_encoded cts w h1 hle, ?_⟩
    simp only [List.length_map, List.length_range]
    omega
  · have h0 : w = 0 := by simp at hle; omega
    subst h0
    exact ⟨[], rfl, rfl⟩

/-- Instance of the amended C5: windows of size 2 over four blobs give two means; a window
of size 0 over one blob gives the empty-input error. -/
theorem MovingAverage_length_witness :
    (∃ r, (MovingAverage [.encoded ⟨1, 1⟩, .encoded ⟨2, 1⟩, .encoded ⟨4, 1⟩,
        .encoded ⟨8, 1⟩] 2).result = .ok r ∧ (r.length : Int) = 2) ∧
    (MovingAverage [.encoded ⟨1, 1⟩] 0).result = .error .emptyInput := by
  have hE : EncryptsAll [.encoded ⟨1, 1⟩, .encoded ⟨2, 1⟩, .encoded ⟨4, 1⟩, .encoded ⟨8, 1⟩]
      [1, 2, 4, 8] :=
    .cons rfl (.cons rfl (.cons rfl (.cons rfl .nil)))
  obtain ⟨r, h1, h2⟩ :=
    (MovingAverage_length _ _ 2 hE (by decide) (by decide)).1 (Or.inl (by decide))
  exact ⟨⟨r, h1, by rw [h2]; decide⟩,
    (MovingAverage_length [.encoded ⟨1, 1⟩] [1] 0 (.cons rfl .nil) (by decide)
      (by decide)).2 rfl (by simp)⟩

/-- C6 on the code: with a window size equal to the length, `MovingAverage` returns the
empty sequence; with a window size above the length (here 2 on a one-element array) the
allocation `make([][]byte, len - windowSize)` gets a negative length and the call aborts
before any evaluator step. -/
theorem MovingAverage_window_above_length_aborts :
    MovingAverage [.encoded ⟨1, 1⟩] 1 = ⟨[], .ok []⟩ ∧
    MovingAverage [.encoded ⟨1, 1⟩] 2 = ⟨[], .error .panic⟩ :=
  ⟨rfl, MovingAverage_panics_of_length_lt _ _ (by decide)⟩

/-- C7: on an array of well-formed blobs with plaintexts `xs` and a window size `w` with
`1 ≤ w < len(array)`, `MovingAverage` returns `len(array) - w` blobs; for every
`i < len(array) - w`, entry `i` is what `ArrayMean(array[i : i+w])` returns and decrypts to
the mean of the plaintexts `xs[i], .., xs[i+w-1]`. -/
theorem MovingAverage_windows (array : List Blob) (xs : List ℚ) (w : Int)
    (hxs : EncryptsAll array xs) (h1 : 1 ≤ w) (h2 : w < (array.length : Int)) :
    ∃ r, (MovingAverage array w).result = .ok r ∧
      (r.length : Int) = (array.length : Int) - w ∧
      ∀ i : Nat, (i : Int) < (array.length : Int) - w →
        ∃ out, r[i]? = some out ∧
          ((slice array (i : Int) ((i : Int) + w)).andThen ArrayMean).result = .ok out ∧
          DecryptCKKS out = .ok (((xs.drop i).take w.toNat).sum / (w : ℚ)) := by
  obtain ⟨cts, rfl, rfl⟩ := (encryptsAll_iff array xs).1 hxs
  rw [List.length_map] at h2 ⊢
  refine ⟨_, MovingAverage_encoded cts w h1 (le_of_lt h2), ?_, ?_⟩
  · simp only [List.length_map, List.length_range]
    omega
  · intro i hi
    have hi2 : (i : Int) + w ≤ (cts.length : Int) := by omega
    have hi3 : i < ((cts.length : Int) - w).toNat := by omega
    have hne : (cts.drop i).take w.toNat ≠ [] := by
      intro h0
      have h4 := congrArg List.length h0
      simp at h4
      omega
    refine ⟨.encoded (meanCiphertext ((cts.drop i).take w.toNat)), ?_, ?_, ?_⟩
    · simp [List.getElem?_range hi3]
    · rw [slice_map_encoded cts i w (by omega) hi2, Run.ret_andThen]
      exact ArrayMean_encoded_of_ne_nil _ hne
    · simp only [DecryptCKKS_encoded, meanCiphertext, window_length cts i w (by omega) hi2,
        List.map_take, List.map_drop, div_eq_mul_inv, one_mul]

/-- Instance of C7: windows of size 2 over the blobs encrypting 1, 2, 4, 8; entry 1 is the
mean of 2 and 4. -/
theorem MovingAverage_windows_witness :
    ∃ r, (MovingAverage [.encoded ⟨1, 1⟩, .encoded ⟨2, 1⟩, .encoded ⟨4, 1⟩,
        .encoded ⟨8, 1⟩] 2).result = .ok r ∧
      ∃ out, r[1]? = some out ∧ DecryptCKKS out = .ok 3 := by
  have hE : EncryptsAll [.encoded ⟨1, 1⟩, .encoded ⟨2, 1⟩, .encoded ⟨4, 1⟩, .encoded ⟨8, 1⟩]
      [1, 2, 4, 8] :=
    .cons rfl (.cons rfl (.cons rfl (.cons rfl .nil)))
  obtain ⟨r, h1, _, h3⟩ := MovingAverage_windows _ _ 2 hE (by decide) (by decide)
  obtain ⟨out, h4, _, h5⟩ := h3 1 (by decide)
  have h6 : Int.toNat 2 = 2 := rfl
  exact ⟨r, h1, out, h4, by rw [h5, h6]; norm_num⟩

/-- C8: for well-formed `first`, `diff`, `n` with plaintexts `a`, `d`, `k`,
`ArithmeticProgressionElementN` returns a blob that decrypts to `a + d * (k - 1)`; for
plaintexts 2, 3, 5 it decrypts to 14. -/
theorem ArithmeticProgressionElementN_decrypts :
    (∀ (first diff n : Blob) (a d k : ℚ),
      Encrypts first a → Encrypts diff d → Encrypts n k →
      ∃ out, (ArithmeticProgressionElementN first diff n).result = .ok out ∧
        DecryptCKKS out = .ok (a + d * (k - 1))) ∧
    (∀ first diff n : Blob, Encrypts first 2 → Encrypts diff 3 → Encrypts n 5 →
      ∃ out, (ArithmeticProgressionElementN first diff n).result = .ok out ∧
        DecryptCKKS out = .ok 14) := by
  have general : ∀ (first diff n : Blob) (a d k : ℚ),
      Encrypts first a → Encrypts diff d → Encrypts n k →
      ∃ out, (ArithmeticProgressionElementN first diff n).result = .ok out ∧
        DecryptCKKS out = .ok (a + d * (k - 1)) := by
    intro first diff n a d k ha hd hk
    obtain ⟨da, rfl⟩ := (encrypts_iff first a).1 ha
    obtain ⟨dd, rfl⟩ := (encrypts_iff diff d).1 hd
    obtain ⟨dk, rfl⟩ := (encrypts_iff n k).1 hk
    exact ⟨_, ArithmeticProgressionElementN_encoded _ _ _, by simp [sub_eq_add_neg]⟩
  refine ⟨general, fun first diff n ha hd hk => ?_⟩
  obtain ⟨out, h1, h2⟩ := general first diff n 2 3 5 ha hd hk
  exact ⟨out, h1, by rw [h2]; norm_num⟩

/-- Instance of C8 on freshly encrypted 2, 3 and 5. -/
theorem ArithmeticProgressionElementN_decrypts_witness :
    ∃ out, (ArithmeticProgressionElementN (.encoded ⟨2, 1⟩) (.encoded ⟨3, 1⟩)
        (.encoded ⟨5, 1⟩)).result = .ok out ∧ DecryptCKKS out = .ok 14 :=
  ArithmeticProgressionElementN_decrypts.2 _ _ _ rfl rfl rfl

/-- C9: for well-formed `first`, `diff`, `n` with plaintexts `a`, `d`, `k`,
`ArithmeticProgressionSum` returns a blob that decrypts to `k * (a + a_k) / 2`, where
`a_k = a + d * (k - 1)`; for plaintexts 2, 3, 5 it decrypts to 40. -/
theorem ArithmeticProgressionSum_decrypts :
    (∀ (first diff n : Blob) (a d k : ℚ),
      Encrypts first a → Encrypts diff d → Encrypts n k →
      ∃ out, (ArithmeticProgressionSum first diff n).result = .ok out ∧
        DecryptCKKS out = .ok (k * (a + (a + d * (k - 1))) / 2)) ∧
    (∀ first diff n : Blob, Encrypts first 2 → Encrypts diff 3 → Encrypts n 5 →
      ∃ out, (ArithmeticProgressionSum first diff n).result = .ok out ∧
        DecryptCKKS out = .ok 40) := by
  have general : ∀ (first diff n : Blob) (a d k : ℚ),
      Encrypts first a → Encrypts diff d → Encrypts n k →
      ∃ out, (ArithmeticProgressionSum first diff n).result = .ok out ∧
        DecryptCKKS out = .ok (k * (a + (a + d * (k - 1))) / 2) := by
    intro first diff n a d k ha hd hk
    obtain ⟨da, rfl⟩ := (encrypts_iff first a).1 ha
    obtain ⟨dd, rfl⟩ := (encrypts_iff diff d).1 hd
    obtain ⟨dk, rfl⟩ := (encrypts_iff n k).1 hk
    exact ⟨_, ArithmeticProgressionSum_encoded _ _ _,
      by simp [sub_eq_add_neg, div_eq_mul_inv]⟩
  refine ⟨general, fun first diff n ha hd hk => ?_⟩
  obtain ⟨out, h1, h2⟩ := general first diff n 2 3 5 ha hd hk
  exact ⟨out, h1, by rw [h2]; norm_num⟩

/-- Instance of C9 on freshly encrypted 2, 3 and 5. -/
theorem ArithmeticProgressionSum_decrypts_witness :
    ∃ out, (ArithmeticProgressionSum (.encoded ⟨2, 1⟩) (.encoded ⟨3, 1⟩)
        (.encoded ⟨5, 1⟩)).result = .ok out ∧ DecryptCKKS out = .ok 40 :=
  ArithmeticProgressionSum_decrypts.2 _ _ _ rfl rfl rfl

/-- C10: on the empty array `ArraySum`, `ArrayMean` and `Variance` each return the
empty-input error and no blob, and their runs contain no evaluator call; the constant
`1 / float64(len)` is only ever formed as an operand of such a call. -/
theorem empty_array_fails :
    ArraySum [] = ⟨[], .error .emptyInput⟩ ∧
    ArrayMean [] = ⟨[], .error .emptyInput⟩ ∧
    Variance [] = ⟨[], .error .emptyInput⟩ :=
  ⟨rfl, rfl, rfl⟩

/-! ### Failing inputs -/

/-- A blob fails to deserialize exactly when it is not the binary form of a ciphertext. -/
theorem unmarshall_error_iff (b : Blob) :
    (unmarshallIntoNewCiphertext b).result = .error .deserialization
      ↔ ∃ bytes, b = .malformed bytes := by
  cases b with
  | encoded c => simp
  | malformed bytes => simp

/-- The accumulation loop of `ArraySum` stops with the deserialization error when some
element fails to deserialize. -/
theorem sumLoop_malformed (array : List Blob)
    (h : ∃ b ∈ array, (unmarshallIntoNewCiphertext b).result = .error .deserialization)
    (acc : Ciphertext) :
    (array.foldlM
      (fun sumCiphertext encryptedData => do
        let ciphertext ← unmarshallIntoNewCiphertext encryptedData
        CkksEvaluator.Add sumCiphertext ciphertext) acc).result
      = .error .deserialization := by
  induction array generalizing acc with
  | nil => simp at h
  | cons b bs ih =>
    simp only [List.foldlM_cons, Run.bind_eq]
    cases b with
    | malformed bytes =>
      exact Run.result_andThen_error (by simp) _
    | encoded c =>
      have hb : ∃ b ∈ bs, (unmarshallIntoNewCiphertext b).result = .error .deserialization := by
        obtain ⟨b, hmem, hbad⟩ := h
        rcases List.mem_cons.1 hmem with rfl | hmem
        · simp at hbad
        · exact ⟨b, hmem, hbad⟩
      have hstep : ((unmarshallIntoNewCiphertext (Blob.encoded c)).andThen
          fun ciphertext => CkksEvaluator.Add acc ciphertext).result
            = .ok ⟨acc.value + c.value, max acc.degree c.degree⟩ := by
        simp [CkksEvaluator.Add, CkksEvaluator.AddNew]
      rw [Run.result_andThen_ok hstep]
      have ih2 := ih hb ⟨acc.value + c.value, max acc.degree c.degree⟩
      simp only [Run.bind_eq] at ih2
      exact ih2

/-- The error `ArraySum` returns when some element fails to deserialize. -/
theorem ArraySum_malformed (array : List Blob)
    (h : ∃ b ∈ array, (unmarshallIntoNewCiphertext b).result = .error .deserialization) :
    (ArraySum array).result = .error .deserialization := by
  cases array with
  | nil => simp at h
  | cons b bs =>
    have hlen : ¬ (b :: bs).length = 0 := by simp
    simp only [ArraySum, hlen, if_false, index_zero_cons, Run.bind_eq, Run.ret_andThen]
    cases b with
    | malformed bytes =>
      exact Run.result_andThen_error (by simp [MakeZeroCiphertext]) _
    | encoded c =>
      have hloop := sumLoop_malformed (Blob.encoded c :: bs) h
        ⟨c.value - c.value, max c.degree c.degree⟩
      simp only [Run.bind_eq] at hloop
      simp only [MakeZeroCiphertext_encoded, Run.step_andThen]
      exact Run.result_andThen_error hloop _

/-! ### Traces of the loops -/

/-- A loop whose body returns normally on every element: its evaluator calls and its final
accumulator. -/
theorem foldlM_map_run {α β γ : Type} (f : β → α → Run β) (φ : γ → α) (g : β → γ → β)
    (T : β → γ → List EvalStep) (ys : List γ)
    (h : ∀ b, ∀ y ∈ ys, f b (φ y) = ⟨T b y, .ok (g b y)⟩) (init : β) :
    (ys.map φ).foldlM f init = ⟨loopTrace T g init ys, .ok (ys.foldl g init)⟩ := by
  induction ys generalizing init with
  | nil => rfl
  | cons y ys ih =>
    have hy := h init y (List.mem_cons_self y ys)
    have ih2 := ih (fun b z hz => h b z (List.mem_cons_of_mem y hz)) (g init y)
    simp only [List.map_cons, List.foldlM_cons, Run.bind_eq, List.foldl_cons, loopTrace]
    rw [hy, Run.step_andThen, ih2]

/-- A property of single calls holds along a loop when the body keeps an invariant of the
accumulator and only makes calls with that property. -/
theorem loopTrace_forall {β γ : Type} (T : β → γ → List EvalStep) (g : β → γ → β)
    (I : β → Prop) (Q : EvalStep → Prop) (ys : List γ)
    (h : ∀ b, ∀ y ∈ ys, I b → I (g b y) ∧ ∀ s ∈ T b y, Q s) (init : β) (hinit : I init) :
    ∀ s ∈ loopTrace T g init ys, Q s := by
  induction ys generalizing init with
  | nil => simp [loopTrace]
  | cons y ys ih =>
    obtain ⟨h1, h2⟩ := h init y (List.mem_cons_self y ys) hinit
    intro s hs
    simp only [loopTrace, List.mem_append] at hs
    rcases hs with hs | hs
    · exact h2 s hs
    · exact ih (fun b z hz => h b z (List.mem_cons_of_mem y hz)) (g init y) h1 s hs

/-- The evaluator calls of the accumulation loop of `ArraySum`. -/
theorem sumLoop_run (cts : List Ciphertext) (acc : Ciphertext) :
    (cts.map Blob.encoded).foldlM
      (fun sumCiphertext encryptedData => do
        let ciphertext ← unmarshallIntoNewCiphertext encryptedData
        CkksEvaluator.Add sumCiphertext ciphertext) acc
      = ⟨loopTrace (fun a c => [EvalStep.add a c])
            (fun a c => (⟨a.value + c.value, max a.degree c.degree⟩ : Ciphertext)) acc cts,
          .ok (cts.foldl
            (fun a c => (⟨a.value + c.value, max a.degree c.degree⟩ : Ciphertext)) acc)⟩ :=
  foldlM_map_run _ Blob.encoded _ _ cts
    (fun b y _ => by simp [CkksEvaluator.Add, CkksEvaluator.AddNew]) acc

/-- The evaluator calls of `ArraySum` on a non-empty array of decodable blobs. -/
theorem ArraySum_trace (c : Ciphertext) (cts : List Ciphertext) :
    (ArraySum ((c :: cts).map Blob.encoded)).trace
      = EvalStep.sub c c :: loopTrace (fun a c => [EvalStep.add a c])
          (fun a c => (⟨a.value + c.value, max a.degree c.degree⟩ : Ciphertext))
          ⟨c.value - c.value, max c.degree c.degree⟩ (c :: cts) := by
  have h := sumLoop_run (c :: cts) ⟨c.value - c.value, max c.degree c.degree⟩
  have hlen : ¬ ((c :: cts).map Blob.encoded).length = 0 := by simp
  simp only [Run.bind_eq] at h
  simp only [ArraySum, hlen, if_false, index_zero_map_cons, MakeZeroCiphertext_encoded,
    Run.bind_eq, Run.ret_andThen, Run.step_andThen]
  rw [h]
  simp [MarshalBinary]

/-- The evaluator calls of `ArrayMean` on a non-empty array of decodable blobs. -/
theorem ArrayMean_trace (c : Ciphertext) (cts : List Ciphertext) :
    (ArrayMean ((c :: cts).map Blob.encoded)).trace
      = (EvalStep.sub c c :: loopTrace (fun a c => [EvalStep.add a c])
          (fun a c => (⟨a.value + c.value, max a.degree c.degree⟩ : Ciphertext))
          ⟨c.value - c.value, max c.degree c.degree⟩ (c :: cts))
        ++ [EvalStep.multByConst
          ⟨((c :: cts).map Ciphertext.value).sum,
            ((c :: cts).map Ciphertext.degree).foldl max c.degree⟩
          (1 / ((c :: cts).length : ℚ))] := by
  simp only [ArrayMean, Run.bind_eq]
  rw [Run.trace_andThen_ok (ArraySum_encoded c cts), ArraySum_trace]
  simp [CkksEvaluator.MultByConstNew, MarshalBinary]

/-- The evaluator calls of the loop of `Variance` on decodable blobs. -/
theorem varianceLoop_run (cts : List Ciphertext) (m acc : Ciphertext) :
    (cts.map Blob.encoded).foldlM
      (fun ciphertextSum encryptedData => do
        let sub ← Subtract encryptedData (.encoded m)
        let pow ← Pow2 sub
        let ciphertextPow ← unmarshallIntoNewCiphertext pow
        let ciphertextPow ← CkksEvaluator.Relinearize ciphertextPow
        CkksEvaluator.Add ciphertextSum ciphertextPow) acc
      = ⟨loopTrace (varianceIteration m) (varianceAccumulate m) acc cts,
          .ok (cts.foldl (varianceAccumulate m) acc)⟩ :=
  foldlM_map_run _ Blob.encoded _ _ cts
    (fun b y _ => by
      simp [Subtract_encoded, Pow2_encoded, CkksEvaluator.Relinearize, CkksEvaluator.Add,
        CkksEvaluator.AddNew, varianceIteration, varianceAccumulate, differenceOf,
        productOf]) acc

/-- The evaluator calls of `Variance` on a non-empty array of decodable blobs: those of
`ArrayMean`, the seed, the loop, and the final multiplication by `1 / len`. -/
theorem Variance_trace (c : Ciphertext) (cts : List Ciphertext) :
    (Variance ((c :: cts).map Blob.encoded)).trace
      = (ArrayMean ((c :: cts).map Blob.encoded)).trace
        ++ (EvalStep.sub c c
          :: (loopTrace (varianceIteration (meanCiphertext (c :: cts)))
              (varianceAccumulate (meanCiphertext (c :: cts)))
              ⟨c.value - c.value, max c.degree c.degree⟩ (c :: cts)
            ++ [EvalStep.multByConst
                ((c :: cts).foldl (varianceAccumulate (meanCiphertext (c :: cts)))
                  ⟨c.value - c.value, max c.degree c.degree⟩)
                (1 / ((c :: cts).length : ℚ))])) := by
  have hmean := ArrayMean_encoded c cts
  have h := varianceLoop_run (c :: cts) (meanCiphertext (c :: cts))
    ⟨c.value - c.value, max c.degree c.degree⟩
  have hlen : ¬ ((c :: cts).map Blob.encoded).length = 0 := by simp
  simp only [Run.bind_eq] at h
  simp only [Variance, hlen, if_false, Run.bind_eq]
  rw [Run.trace_andThen_ok hmean]
  simp only [index_zero_map_cons, MakeZeroCiphertext_encoded, Run.ret_andThen,
    Run.step_andThen]
  rw [h]
  simp only [Run.step_andThen, MarshalBinary, Run.ret_andThen, DivByConst_encoded,
    List.length_map, List.singleton_append]

/-! ### Degrees along the runs -/

/-- An array of well-formed degree-1 blobs is the serialization of degree-1 ciphertexts. -/
theorem degreeOne_iff (array : List Blob) :
    (∀ b ∈ array, b.degree? = some 1)
      ↔ ∃ cts : List Ciphertext, array = cts.map Blob.encoded ∧ ∀ c ∈ cts, c.degree = 1 := by
  constructor
  · intro h
    induction array with
    | nil => exact ⟨[], rfl, by simp⟩
    | cons b bs ih =>
      obtain ⟨cts, h1, h2⟩ := ih (fun b hb => h b (List.mem_cons_of_mem _ hb))
      have hb := h b (List.mem_cons_self b bs)
      cases b with
      | malformed bytes => simp [Blob.degree?] at hb
      | encoded c =>
        refine ⟨c :: cts, by simp [h1], ?_⟩
        intro x hx
        rcases List.mem_cons.1 hx with rfl | hx
        · simpa [Blob.degree?] using hb
        · exact h2 x hx
  · rintro ⟨cts, rfl, h⟩ b hb
    obtain ⟨c, hc, rfl⟩ := List.mem_map.1 hb
    simp [Blob.degree?, h c hc]

theorem foldl_max_one (l : List Nat) (h : ∀ d ∈ l, d = 1) : l.foldl max 1 = 1 := by
  induction l with
  | nil => rfl
  | cons d l ih =>
    have hd := h d (List.mem_cons_self d l)
    subst hd
    simpa using ih (fun d hd => h d (List.mem_cons_of_mem _ hd))

/-- The mean of degree-1 ciphertexts has degree 1. -/
theorem meanCiphertext_degree (c : Ciphertext) (cts : List Ciphertext)
    (h : ∀ x ∈ c :: cts, x.degree = 1) : (meanCiphertext (c :: cts)).degree = 1 := by
  have hc : c.degree = 1 := h c (List.mem_cons_self c cts)
  simp only [meanCiphertext, List.headD_cons, hc]
  apply foldl_max_one
  intro d hd
  obtain ⟨x, hx, rfl⟩ := List.mem_map.1 hd
  exact h x hx

/-- The calls of `ArrayMean` on degree-1 ciphertexts: no multiplication of ciphertexts, and
every `add` has degree-1 operands. -/
theorem ArrayMean_trace_forall (c : Ciphertext) (cts : List Ciphertext)
    (h : ∀ x ∈ c :: cts, x.degree = 1) :
    ∀ s ∈ (ArrayMean ((c :: cts).map Blob.encoded)).trace,
      s.addAtDegreeOne = true ∧ s.isMul = false := by
  have hc : c.degree = 1 := h c (List.mem_cons_self c cts)
  have hloop := loopTrace_forall (fun a c => [EvalStep.add a c])
    (fun a c => (⟨a.value + c.value, max a.degree c.degree⟩ : Ciphertext))
    (fun a => a.degree = 1) (fun s => s.addAtDegreeOne = true ∧ s.isMul = false) (c :: cts)
    (fun b y hy hb => by
      have hyd : y.degree = 1 := h y hy
      simp [hb, hyd, EvalStep.addAtDegreeOne, EvalStep.isMul])
    ⟨c.value - c.value, max c.degree c.degree⟩ (by simp [hc])
  intro s hs
  rw [ArrayMean_trace] at hs
  simp only [List.cons_append, List.mem_cons, List.mem_append, List.mem_singleton,
    List.not_mem_nil, or_false] at hs
  rcases hs with rfl | hs | rfl
  · exact ⟨rfl, rfl⟩
  · exact hloop s hs
  · exact ⟨rfl, rfl⟩

/-- Calls that are not multiplications of ciphertexts can be skipped in front of a trace. -/
theorem productsRelinearized_append_of_no_mul (pre post : List EvalStep)
    (h : ∀ s ∈ pre, s.isMul = false) :
    productsRelinearized (pre ++ post) = productsRelinearized post := by
  induction pre with
  | nil => rfl
  | cons s pre ih =>
    have ih2 := ih (fun s hs => h s (List.mem_cons_of_mem _ hs))
    have hs := h s (List.mem_cons_self s pre)
    cases s with
    | mul a b => simp [EvalStep.isMul] at hs
    | add a b => simpa [productsRelinearized] using ih2
    | sub a b => simpa [productsRelinearized] using ih2
    | addConst a k => simpa [productsRelinearized] using ih2
    | multByConst a k => simpa [productsRelinearized] using ih2
    | relinearize a => simpa [productsRelinearized] using ih2
    | addConstNil k => simpa [productsRelinearized] using ih2

/-- In the loop of `Variance` every square is relinearized and then added to a degree-1
running sum. -/
theorem productsRelinearized_varianceLoop (m : Ciphertext) (cts : List Ciphertext)
    (acc : Ciphertext) (hacc : acc.degree = 1) (post : List EvalStep) :
    productsRelinearized
        (loopTrace (varianceIteration m) (varianceAccumulate m) acc cts ++ post)
      = productsRelinearized post := by
  induction cts generalizing acc with
  | nil => rfl
  | cons c cts ih =>
    have ih2 := ih (varianceAccumulate m acc c) (by simp [varianceAccumulate, hacc])
    simp only [loopTrace, varianceIteration, List.cons_append, List.nil_append,
      List.append_assoc, productsRelinearized]
    simpa [productOf, hacc] using ih2

/-- In the loop of `Variance` every `add` has degree-1 operands when the running sum starts
at degree 1. -/
theorem varianceLoop_forall (m : Ciphertext) (cts : List Ciphertext) (acc : Ciphertext)
    (hacc : acc.degree = 1) :
    ∀ s ∈ loopTrace (varianceIteration m) (varianceAccumulate m) acc cts,
      s.addAtDegreeOne = true :=
  loopTrace_forall _ _ (fun a => a.degree = 1) _ cts
    (fun b y _ hb => by
      simp [varianceAccumulate, varianceIteration, hb, EvalStep.addAtDegreeOne])
    acc hacc

/-- The loop of `Variance` multiplies ciphertexts once per element. -/
theorem varianceLoop_countP (m : Ciphertext) (cts : List Ciphertext) (acc : Ciphertext) :
    (loopTrace (varianceIteration m) (varianceAccumulate m) acc cts).countP EvalStep.isMul
      = cts.length := by
  induction cts generalizing acc with
  | nil => rfl
  | cons c cts ih =>
    simp only [loopTrace, List.countP_append, ih, List.length_cons]
    simp [varianceIteration, EvalStep.isMul, List.countP_cons]
    omega

/-- The evaluator calls of the loop of `Covariance` on decodable blobs. -/
theorem covarianceLoop_run (cts1 cts2 : List Ciphertext) (hlen : cts1.length = cts2.length)
    (m1 m2 acc : Ciphertext) :
    (List.range (cts1.map Blob.encoded).length).foldlM
      (fun ciphertextSum i => do
        let x ← index (cts1.map Blob.encoded) i
        let sub1 ← Subtract x (.encoded m1)
        let y ← index (cts2.map Blob.encoded) i
        let sub2 ← Subtract y (.encoded m2)
        let mult ← MultOf2 sub1 sub2
        let ciphertextMult ← unmarshallIntoNewCiphertext mult
        let ciphertextMult ← CkksEvaluator.Relinearize ciphertextMult
        CkksEvaluator.Add ciphertextSum ciphertextMult) acc
      = ⟨loopTrace
            (fun a i => covarianceIteration m1 m2 a (cts1.getD i ⟨0, 0⟩) (cts2.getD i ⟨0, 0⟩))
            (fun a i => covarianceAccumulate m1 m2 a (cts1.getD i ⟨0, 0⟩) (cts2.getD i ⟨0, 0⟩))
            acc (List.range cts1.length),
          .ok ((List.range cts1.length).foldl
            (fun a i => covarianceAccumulate m1 m2 a (cts1.getD i ⟨0, 0⟩) (cts2.getD i ⟨0, 0⟩))
            acc)⟩ := by
  have h := foldlM_map_run
    (fun ciphertextSum i => do
        let x ← index (cts1.map Blob.encoded) i
        let sub1 ← Subtract x (.encoded m1)
        let y ← index (cts2.map Blob.encoded) i
        let sub2 ← Subtract y (.encoded m2)
        let mult ← MultOf2 sub1 sub2
        let ciphertextMult ← unmarshallIntoNewCiphertext mult
        let ciphertextMult ← CkksEvaluator.Relinearize ciphertextMult
        CkksEvaluator.Add ciphertextSum ciphertextMult)
    id
    (fun a i => covarianceAccumulate m1 m2 a (cts1.getD i ⟨0, 0⟩) (cts2.getD i ⟨0, 0⟩))
    (fun a i => covarianceIteration m1 m2 a (cts1.getD i ⟨0, 0⟩) (cts2.getD i ⟨0, 0⟩))
    (List.range cts1.length)
    (fun b i hi => by
      have h1 : i < cts1.length := List.mem_range.1 hi
      have h2 : i < cts2.length := hlen ▸ h1
      simp [index_map_encoded, h1, h2, Subtract_encoded, MultOf2_encoded,
        CkksEvaluator.Relinearize, CkksEvaluator.Add, CkksEvaluator.AddNew,
        covarianceIteration, covarianceAccumulate, differenceOf, productOf])
    acc
  rw [List.map_id] at h
  rw [List.length_map, h]

/-- The evaluator calls of `Covariance` on two non-empty arrays of decodable blobs of equal
length: those of the two `ArrayMean`, the seed, the loop, and the final multiplication by
`1 / len`. -/
theorem Covariance_trace (c1 c2 : Ciphertext) (cts1 cts2 : List Ciphertext)
    (hlen : cts1.length = cts2.length) :
    (Covariance ((c1 :: cts1).map Blob.encoded) ((c2 :: cts2).map Blob.encoded)).trace
      = (ArrayMean ((c1 :: cts1).map Blob.encoded)).trace
        ++ ((ArrayMean ((c2 :: cts2).map Blob.encoded)).trace
          ++ (EvalStep.sub c1 c1
            :: (loopTrace
                (fun a i => covarianceIteration (meanCiphertext (c1 :: cts1))
                  (meanCiphertext (c2 :: cts2)) a
                  ((c1 :: cts1).getD i ⟨0, 0⟩) ((c2 :: cts2).getD i ⟨0, 0⟩))
                (fun a i => covarianceAccumulate (meanCiphertext (c1 :: cts1))
                  (meanCiphertext (c2 :: cts2)) a
                  ((c1 :: cts1).getD i ⟨0, 0⟩) ((c2 :: cts2).getD i ⟨0, 0⟩))
                ⟨c1.value - c1.value, max c1.degree c1.degree⟩
                (List.range (c1 :: cts1).length)
              ++ [EvalStep.multByConst
                  ((List.range (c1 :: cts1).length).foldl
                    (fun a i => covarianceAccumulate (meanCiphertext (c1 :: cts1))
                      (meanCiphertext (c2 :: cts2)) a
                      ((c1 :: cts1).getD i ⟨0, 0⟩) ((c2 :: cts2).getD i ⟨0, 0⟩))
                    ⟨c1.value - c1.value, max c1.degree c1.degree⟩)
                  (1 / ((c1 :: cts1).length : ℚ))]))) := by
  have hmean1 := ArrayMean_encoded c1 cts1
  have hmean2 := ArrayMean_encoded c2 cts2
  have hlen2 : (c1 :: cts1).length = (c2 :: cts2).length := by simp [hlen]
  have h := covarianceLoop_run (c1 :: cts1) (c2 :: cts2) hlen2
    (meanCiphertext (c1 :: cts1)) (meanCiphertext (c2 :: cts2))
    ⟨c1.value - c1.value, max c1.degree c1.degree⟩
  have hne : ¬ ((c1 :: cts1).map Blob.encoded).length
      ≠ ((c2 :: cts2).map Blob.encoded).length := by simp [hlen]
  have hpos : ¬ (((c1 :: cts1).map Blob.encoded).length = 0
      ∨ ((c2 :: cts2).map Blob.encoded).length = 0) := by simp
  simp only [Run.bind_eq] at h
  simp only [Covariance, hne, hpos, if_false, Run.bind_eq]
  rw [Run.trace_andThen_ok hmean1, Run.trace_andThen_ok hmean2]
  simp only [index_zero_map_cons, MakeZeroCiphertext_encoded, Run.ret_andThen,
    Run.step_andThen]
  rw [h]
  simp only [Run.step_andThen, MarshalBinary, Run.ret_andThen, DivByConst_encoded,
    List.length_map, List.singleton_append]

/-- In the loop of `Covariance` every product is relinearized and then added to a degree-1
running sum. -/
theorem productsRelinearized_covarianceLoop (m1 m2 : Ciphertext) (X Y : Nat → Ciphertext)
    (is : List Nat) (acc : Ciphertext) (hacc : acc.degree = 1) (post : List EvalStep) :
    productsRelinearized
        (loopTrace (fun a i => covarianceIteration m1 m2 a (X i) (Y i))
          (fun a i => covarianceAccumulate m1 m2 a (X i) (Y i)) acc is ++ post)
      = productsRelinearized post := by
  induction is generalizing acc with
  | nil => rfl
  | cons i is ih =>
    have ih2 := ih (covarianceAccumulate m1 m2 acc (X i) (Y i))
      (by simp [covarianceAccumulate, hacc])
    simp only [loopTrace, covarianceIteration, List.cons_append, List.nil_append,
      List.append_assoc, productsRelinearized]
    simpa [productOf, hacc] using ih2

/-- In the loop of `Covariance` every `add` has degree-1 operands when the running sum
starts at degree 1. -/
theorem covarianceLoop_forall (m1 m2 : Ciphertext) (X Y : Nat → Ciphertext)
    (is : List Nat) (acc : Ciphertext) (hacc : acc.degree = 1) :
    ∀ s ∈ loopTrace (fun a i => covarianceIteration m1 m2 a (X i) (Y i))
        (fun a i => covarianceAccumulate m1 m2 a (X i) (Y i)) acc is,
      s.addAtDegreeOne = true :=
  loopTrace_forall _ _ (fun a => a.degree = 1) _ is
    (fun b y _ hb => by
      simp [covarianceAccumulate, covarianceIteration, hb, EvalStep.addAtDegreeOne])
    acc hacc

/-- The loop of `Covariance` multiplies ciphertexts once per index. -/
theorem covarianceLoop_countP (m1 m2 : Ciphertext) (X Y : Nat → Ciphertext)
    (is : List Nat) (acc : Ciphertext) :
    (loopTrace (fun a i => covarianceIteration m1 m2 a (X i) (Y i))
        (fun a i => covarianceAccumulate m1 m2 a (X i) (Y i)) acc is).countP EvalStep.isMul
      = is.length := by
  induction is generalizing acc with
  | nil => rfl
  | cons i is ih =>
    simp only [loopTrace, List.countP_append, ih, List.length_cons]
    simp [covarianceIteration, EvalStep.isMul, List.countP_cons]
    omega

/-- On degree-1 ciphertexts `ArraySum` returns a degree-1 blob. -/
theorem ArraySum_degreeOne (c : Ciphertext) (cts : List Ciphertext)
    (h : ∀ x ∈ c :: cts, x.degree = 1) :
    ∃ out, (ArraySum ((c :: cts).map Blob.encoded)).result = .ok out ∧
      out.degree? = some 1 := by
  have hc : c.degree = 1 := h c (List.mem_cons_self c cts)
  refine ⟨_, ArraySum_encoded c cts, ?_⟩
  simp only [Blob.degree?, hc, Option.some.injEq]
  apply foldl_max_one
  intro d hd
  obtain ⟨x, hx, rfl⟩ := List.mem_map.1 hd
  exact h x hx

/-- On degree-1 ciphertexts `ArrayMean` returns a degree-1 blob. -/
theorem ArrayMean_degreeOne (c : Ciphertext) (cts : List Ciphertext)
    (h : ∀ x ∈ c :: cts, x.degree = 1) :
    ∃ out, (ArrayMean ((c :: cts).map Blob.encoded)).result = .ok out ∧
      out.degree? = some 1 :=
  ⟨_, ArrayMean_encoded c cts, by simp [Blob.degree?, meanCiphertext_degree c cts h]⟩

/-- On degree-1 ciphertexts `Variance` returns a degree-1 blob. -/
theorem Variance_degreeOne (c : Ciphertext) (cts : List Ciphertext)
    (h : ∀ x ∈ c :: cts, x.degree = 1) :
    ∃ out, (Variance ((c :: cts).map Blob.encoded)).result = .ok out ∧
      out.degree? = some 1 := by
  have hc : c.degree = 1 := h c (List.mem_cons_self c cts)
  refine ⟨_, Variance_encoded c cts, ?_⟩
  simp only [Blob.degree?, hc, Option.some.injEq, max_self]
  apply foldl_max_one
  intro d hd
  obtain ⟨x, _, rfl⟩ := List.mem_map.1 hd
  rfl

/-- On degree-1 ciphertexts `Covariance` returns a degree-1 blob. -/
theorem Covariance_degreeOne (c1 c2 : Ciphertext) (cts1 cts2 : List Ciphertext)
    (hlen : cts1.length = cts2.length) (h : c1.degree = 1) :
    ∃ out, (Covariance ((c1 :: cts1).map Blob.encoded)
        ((c2 :: cts2).map Blob.encoded)).result = .ok out ∧
      out.degree? = some 1 := by
  refine ⟨_, Covariance_encoded c1 c2 cts1 cts2 hlen, ?_⟩
  simp only [Blob.degree?, h, Option.some.injEq, max_self]
  apply foldl_max_one
  intro d hd
  obtain ⟨x, _, rfl⟩ := List.mem_map.1 hd
  rfl

/-- On degree-1 ciphertexts every mean `MovingAverage` returns is a degree-1 blob. -/
theorem MovingAverage_degreeOne (cts : List Ciphertext) (h : ∀ x ∈ cts, x.degree = 1)
    (w : Int) (h1 : 1 ≤ w) (h2 : w ≤ (cts.length : Int)) :
    ∃ r, (MovingAverage (cts.map Blob.encoded) w).result = .ok r ∧
      ∀ b ∈ r, b.degree? = some 1 := by
  refine ⟨_, MovingAverage_encoded cts w h1 h2, ?_⟩
  intro b hb
  obtain ⟨i, hi, rfl⟩ := List.mem_map.1 hb
  have hi2 : i < ((cts.length : Int) - w).toNat := List.mem_range.1 hi
  have hsub : ∀ x ∈ (cts.drop i).take w.toNat, x.degree = 1 :=
    fun x hx => h x (List.mem_of_mem_drop (List.mem_of_mem_take hx))
  cases hwin : (cts.drop i).take w.toNat with
  | nil =>
    have h4 := congrArg List.length hwin
    simp at h4
    omega
  | cons x xs =>
    rw [hwin] at hsub
    simp [Blob.degree?, meanCiphertext_degree x xs hsub]

/-! ## The claims, continued -/

/-- C11: when the two arrays differ in length, `Covariance` returns the length-mismatch
error whatever the blobs are, before any blob is decoded and with no evaluator call. -/
theorem Covariance_length_mismatch (array1 array2 : List Blob)
    (h : array1.length ≠ array2.length) :
    Covariance array1 array2 = ⟨[], .error .lengthMismatch⟩ := by
  simp only [Covariance, h, ne_eq, not_false_eq_true, if_true]
  rfl

/-- Instance of C11: arrays of lengths 3 and 4 made of undecodable blobs. -/
theorem Covariance_length_mismatch_witness :
    Covariance [.malformed [], .malformed [], .malformed []]
        [.malformed [], .malformed [], .malformed [], .malformed []]
      = ⟨[], .error .lengthMismatch⟩ :=
  Covariance_length_mismatch _ _ (by decide)

/-- C12 as stated fails: with exactly one array empty the length check comes first and
`Covariance` returns the length-mismatch error, not the empty-input error. -/
theorem Covariance_one_empty_counterexample :
    Covariance [] [.encoded ⟨1, 1⟩] = ⟨[], .error .lengthMismatch⟩ ∧
    (Covariance [] [.encoded ⟨1, 1⟩]).result ≠ .error .emptyInput := by
  refine ⟨rfl, ?_⟩
  show (Except.error Failure.lengthMismatch : Except Failure Blob) ≠ .error .emptyInput
  simp

/-- C12, amended: when at least one of the two arrays is empty, `Covariance` fails with no
evaluator call: with the empty-input error when both are empty, with the length-mismatch
error when exactly one is. -/
theorem Covariance_empty (array1 array2 : List Blob) (h : array1 = [] ∨ array2 = []) :
    (array1 = [] ∧ array2 = [] → Covariance array1 array2 = ⟨[], .error .emptyInput⟩) ∧
    (¬ (array1 = [] ∧ array2 = []) →
      Covariance array1 array2 = ⟨[], .error .lengthMismatch⟩) := by
  refine ⟨?_, fun hnot => Covariance_length_mismatch _ _ ?_⟩
  · rintro ⟨rfl, rfl⟩
    rfl
  · intro hlen
    apply hnot
    rcases h with rfl | rfl
    · exact ⟨rfl, List.length_eq_zero.1 hlen.symm⟩
    · exact ⟨List.length_eq_zero.1 hlen, rfl⟩

/-- Instance of the amended C12: both arrays empty, and exactly one empty. -/
theorem Covariance_empty_witness :
    Covariance [] [] = ⟨[], .error .emptyInput⟩ ∧
    Covariance [.encoded ⟨1, 1⟩] [] = ⟨[], .error .lengthMismatch⟩ :=
  ⟨(Covariance_empty [] [] (Or.inl rfl)).1 ⟨rfl, rfl⟩,
    (Covariance_empty [.encoded ⟨1, 1⟩] [] (Or.inr rfl)).2 (by simp)⟩

/-- C13: when some blob of the array, at any position, fails to deserialize, `ArraySum`
returns the deserialization error and no blob. -/
theorem ArraySum_fails_on_malformed (array : List Blob) (b : Blob) (hmem : b ∈ array)
    (hbad : (unmarshallIntoNewCiphertext b).result = .error .deserialization) :
    (ArraySum array).result = .error .deserialization ∧
    ¬ ∃ out, (ArraySum array).result = .ok out := by
  have h := ArraySum_malformed array ⟨b, hmem, hbad⟩
  refine ⟨h, ?_⟩
  rintro ⟨out, hout⟩
  rw [h] at hout
  cases hout

/-- Instance of C13: the bad blob in the middle of the array. -/
theorem ArraySum_fails_on_malformed_witness :
    (ArraySum [.encoded ⟨1, 1⟩, .malformed [7], .encoded ⟨2, 1⟩]).result
      = .error .deserialization :=
  (ArraySum_fails_on_malformed [.encoded ⟨1, 1⟩, .malformed [7], .encoded ⟨2, 1⟩]
    (.malformed [7]) (by simp) rfl).1

/-- What `MakeCiphertextFromFloat` does on a decodable sample. -/
theorem MakeCiphertextFromFloat_encoded (number : ℚ) (a : Ciphertext) :
    MakeCiphertextFromFloat number (.encoded a)
      = ⟨[.sub a a, .addConst ⟨a.value - a.value, max a.degree a.degree⟩ number],
          .ok ⟨a.value - a.value + number, max a.degree a.degree⟩⟩ := by
  simp [MakeCiphertextFromFloat, MakeZeroCiphertext_encoded, Run.dropError,
    CkksEvaluator.AddConstNewOnPointer, CkksEvaluator.AddConstNew, Run.ret]

/-- C14 on the code: on a blob that fails to deserialize, `MakeZeroCiphertext`, `AddConst`,
`SubtractConst`, `MultByConst`, `DivByConst`, `SumOf2`, `Subtract`, `MultOf2` (bad blob in
either position) and `Pow2` return the deserialization error with no evaluator call.
`MakeCiphertextFromFloat` does not: it drops the error, calls `AddConstNew` on the nil
ciphertext and aborts. -/
theorem primitive_layer_on_malformed (bytes : List Nat) (b : Blob) (k : ℚ) :
    MakeZeroCiphertext (.malformed bytes) = ⟨[], .error .deserialization⟩ ∧
    AddConst (.malformed bytes) k = ⟨[], .error .deserialization⟩ ∧
    SubtractConst (.malformed bytes) k = ⟨[], .error .deserialization⟩ ∧
    MultByConst (.malformed bytes) k = ⟨[], .error .deserialization⟩ ∧
    DivByConst (.malformed bytes) k = ⟨[], .error .deserialization⟩ ∧
    SumOf2 (.malformed bytes) b = ⟨[], .error .deserialization⟩ ∧
    SumOf2 b (.malformed bytes) = ⟨[], .error .deserialization⟩ ∧
    Subtract (.malformed bytes) b = ⟨[], .error .deserialization⟩ ∧
    Subtract b (.malformed bytes) = ⟨[], .error .deserialization⟩ ∧
    MultOf2 (.malformed bytes) b = ⟨[], .error .deserialization⟩ ∧
    MultOf2 b (.malformed bytes) = ⟨[], .error .deserialization⟩ ∧
    Pow2 (.malformed bytes) = ⟨[], .error .deserialization⟩ ∧
    MakeCiphertextFromFloat k (.malformed bytes) = ⟨[.addConstNil k], .error .panic⟩ := by
  refine ⟨rfl, rfl, rfl, rfl, rfl, rfl, ?_, rfl, ?_, rfl, ?_, rfl, rfl⟩ <;>
    cases b <;> rfl

/-- C15: for a well-formed sample `v` (of any plaintext `x`) and any constant `c`,
`MakeZeroCiphertext(v)` yields a ciphertext that decrypts to 0, `MakeCiphertextFromFloat(c, v)`
one that decrypts to `c`, and `Subtract(v, v)` a blob that decrypts to 0. -/
theorem zero_and_constant_from_sample (v : Blob) (x c : ℚ) (hv : Encrypts v x) :
    (∃ zero, (MakeZeroCiphertext v).result = .ok zero ∧
      DecryptCKKS (.encoded zero) = .ok 0) ∧
    (∃ ct, (MakeCiphertextFromFloat c v).result = .ok ct ∧
      DecryptCKKS (.encoded ct) = .ok c) ∧
    (∃ out, (Subtract v v).result = .ok out ∧ DecryptCKKS out = .ok 0) := by
  obtain ⟨d, rfl⟩ := (encrypts_iff v x).1 hv
  refine ⟨⟨_, by rw [MakeZeroCiphertext_encoded], by simp⟩,
    ⟨_, by rw [MakeCiphertextFromFloat_encoded], by simp⟩,
    ⟨_, by rw [Subtract_encoded], by simp⟩⟩

/-- Instance of C15: the sample encrypts 3, the constant is 5. -/
theorem zero_and_constant_from_sample_witness :
    (∃ zero, (MakeZeroCiphertext (.encoded ⟨3, 1⟩)).result = .ok zero ∧
      DecryptCKKS (.encoded zero) = .ok 0) ∧
    (∃ ct, (MakeCiphertextFromFloat 5 (.encoded ⟨3, 1⟩)).result = .ok ct ∧
      DecryptCKKS (.encoded ct) = .ok 5) ∧
    (∃ out, (Subtract (.encoded ⟨3, 1⟩) (.encoded ⟨3, 1⟩)).result = .ok out ∧
      DecryptCKKS out = .ok 0) :=
  zero_and_constant_from_sample (.encoded ⟨3, 1⟩) 3 5 rfl

/-! ### Order of the elements -/

/-- An array of well-formed blobs is the serialization of the ciphertexts it carries. -/
theorem map_encoded_filterMap (array : List Blob)
    (h : ∀ b ∈ array, ∃ c, b = Blob.encoded c) :
    (array.filterMap Blob.ciphertext?).map Blob.encoded = array := by
  induction array with
  | nil => rfl
  | cons b bs ih =>
    obtain ⟨c, rfl⟩ := h b (List.mem_cons_self b bs)
    have ih2 := ih (fun b hb => h b (List.mem_cons_of_mem _ hb))
    simp [Blob.ciphertext?, ih2]

theorem ArraySum_value (cts : List Ciphertext) (hne : cts ≠ []) :
    ∃ d, (ArraySum (cts.map Blob.encoded)).result
      = .ok (.encoded ⟨(cts.map Ciphertext.value).sum, d⟩) := by
  cases cts with
  | nil => exact absurd rfl hne
  | cons c cts => exact ⟨_, ArraySum_encoded c cts⟩

theorem ArrayMean_value (cts : List Ciphertext) (hne : cts ≠ []) :
    ∃ d, (ArrayMean (cts.map Blob.encoded)).result
      = .ok (.encoded ⟨(cts.map Ciphertext.value).sum * (1 / (cts.length : ℚ)), d⟩) :=
  ⟨_, ArrayMean_encoded_of_ne_nil cts hne⟩

theorem Variance_value (cts : List Ciphertext) (hne : cts ≠ []) :
    ∃ d, (Variance (cts.map Blob.encoded)).result
      = .ok (.encoded
          ⟨(cts.map (fun x =>
              (x.value - (cts.map Ciphertext.value).sum * (1 / (cts.length : ℚ)))
              * (x.value - (cts.map Ciphertext.value).sum * (1 / (cts.length : ℚ))))).sum
            * (1 / (cts.length : ℚ)), d⟩) := by
  cases cts with
  | nil => exact absurd rfl hne
  | cons c cts =>
    refine ⟨((c :: cts).map (fun _ => 1)).foldl max (max c.degree c.degree), ?_⟩
    rw [Variance_encoded c cts]
    simp [meanCiphertext]

/-- C16: for a non-empty array of well-formed blobs and any permutation of it, `ArraySum`,
`ArrayMean` and `Variance` succeed on both and their results decrypt to the same value. -/
theorem order_not_significant (array array' : List Blob) (xs : List ℚ)
    (hne : array ≠ []) (hxs : EncryptsAll array xs) (hperm : array.Perm array') :
    (∃ v, (∃ out, (ArraySum array).result = .ok out ∧ DecryptCKKS out = .ok v) ∧
      ∃ out', (ArraySum array').result = .ok out' ∧ DecryptCKKS out' = .ok v) ∧
    (∃ v, (∃ out, (ArrayMean array).result = .ok out ∧ DecryptCKKS out = .ok v) ∧
      ∃ out', (ArrayMean array').result = .ok out' ∧ DecryptCKKS out' = .ok v) ∧
    (∃ v, (∃ out, (Variance array).result = .ok out ∧ DecryptCKKS out = .ok v) ∧
      ∃ out', (Variance array').result = .ok out' ∧ DecryptCKKS out' = .ok v) := by
  obtain ⟨cts, rfl, rfl⟩ := (encryptsAll_iff array xs).1 hxs
  have hwf : ∀ b ∈ array', ∃ c, b = Blob.encoded c := by
    intro b hb
    obtain ⟨c, _, hc⟩ := List.mem_map.1 (hperm.mem_iff.2 hb)
    exact ⟨c, hc.symm⟩
  have harr : (array'.filterMap Blob.ciphertext?).map Blob.encoded = array' :=
    map_encoded_filterMap array' hwf
  have hp : cts.Perm (array'.filterMap Blob.ciphertext?) := by
    have h := hperm.filterMap Blob.ciphertext?
    simpa [List.filterMap_map, Function.comp_def, Blob.ciphertext?] using h
  generalize array'.filterMap Blob.ciphertext? = cts' at harr hp
  subst harr
  have hne1 : cts ≠ [] := by
    intro h0
    exact hne (by simp [h0])
  have hne2 : cts' ≠ [] := fun h0 => hne1 (List.Perm.eq_nil (h0 ▸ hp))
  have hsum : (cts'.map Ciphertext.value).sum = (cts.map Ciphertext.value).sum :=
    ((hp.map Ciphertext.value).sum_eq).symm
  have hlen : cts'.length = cts.length := hp.length_eq.symm
  obtain ⟨d1, h1⟩ := ArraySum_value cts hne1
  obtain ⟨d1', h1'⟩ := ArraySum_value cts' hne2
  obtain ⟨d2, h2⟩ := ArrayMean_value cts hne1
  obtain ⟨d2', h2'⟩ := ArrayMean_value cts' hne2
  obtain ⟨d3, h3⟩ := Variance_value cts hne1
  obtain ⟨d3', h3'⟩ := Variance_value cts' hne2
  refine ⟨⟨_, ⟨_, h1, rfl⟩, ⟨_, h1', ?_⟩⟩, ⟨_, ⟨_, h2, rfl⟩, ⟨_, h2', ?_⟩⟩,
    ⟨_, ⟨_, h3, rfl⟩, ⟨_, h3', ?_⟩⟩⟩
  · simp [hsum]
  · simp [hsum, hlen]
  · simp only [DecryptCKKS_encoded, hsum, hlen]
    exact congrArg _ (congrArg (· * (1 / (cts.length : ℚ)))
      ((hp.map _).sum_eq).symm)

/-- Instance of C16: the array encrypting 1, 2, 4, 9 and its rearrangement 9, 2, 1, 4, whose
zero seed comes from a different element. -/
theorem order_not_significant_witness :
    List.Perm [Blob.encoded ⟨1, 1⟩, .encoded ⟨2, 1⟩, .encoded ⟨4, 1⟩, .encoded ⟨9, 1⟩]
      [.encoded ⟨9, 1⟩, .encoded ⟨2, 1⟩, .encoded ⟨1, 1⟩, .encoded ⟨4, 1⟩] ∧
    ∃ v, (∃ out, (Variance [.encoded ⟨1, 1⟩, .encoded ⟨2, 1⟩, .encoded ⟨4, 1⟩,
          .encoded ⟨9, 1⟩]).result = .ok out ∧ DecryptCKKS out = .ok v) ∧
      ∃ out', (Variance [.encoded ⟨9, 1⟩, .encoded ⟨2, 1⟩, .encoded ⟨1, 1⟩,
          .encoded ⟨4, 1⟩]).result = .ok out' ∧ DecryptCKKS out' = .ok v := by
  have hp : List.Perm [Blob.encoded ⟨1, 1⟩, .encoded ⟨2, 1⟩, .encoded ⟨4, 1⟩, .encoded ⟨9, 1⟩]
      [.encoded ⟨9, 1⟩, .encoded ⟨2, 1⟩, .encoded ⟨1, 1⟩, .encoded ⟨4, 1⟩] := by
    decide
  have hE : EncryptsAll [.encoded ⟨1, 1⟩, .encoded ⟨2, 1⟩, .encoded ⟨4, 1⟩, .encoded ⟨9, 1⟩]
      [1, 2, 4, 9] :=
    .cons rfl (.cons rfl (.cons rfl (.cons rfl .nil)))
  exact ⟨hp, (order_not_significant _ _ [1, 2, 4, 9] (by simp) hE hp).2.2⟩

/-- C17 on the code: on well-formed degree-1 inputs `ArraySum`, `ArrayMean`, `Variance`,
`MovingAverage` (every mean, for a window size from 1 to the length) and `Covariance` return
degree-1 blobs, but `ArithmeticProgressionElementN` and `ArithmeticProgressionSum` return
blobs of degree 2: the product `diff * (n - 1)`, resp. `n * (first + a_n)`, is not
relinearized. -/
theorem aggregation_layer_degrees :
    (∀ array : List Blob, array ≠ [] → (∀ b ∈ array, b.degree? = some 1) →
      (∃ out, (ArraySum array).result = .ok out ∧ out.degree? = some 1) ∧
      (∃ out, (ArrayMean array).result = .ok out ∧ out.degree? = some 1) ∧
      (∃ out, (Variance array).result = .ok out ∧ out.degree? = some 1) ∧
      ∀ w : Int, 1 ≤ w → w ≤ (array.length : Int) →
        ∃ r, (MovingAverage array w).result = .ok r ∧ ∀ b ∈ r, b.degree? = some 1) ∧
    (∀ array1 array2 : List Blob, array1 ≠ [] → array1.length = array2.length →
      (∀ b ∈ array1, b.degree? = some 1) → (∀ b ∈ array2, b.degree? = some 1) →
      ∃ out, (Covariance array1 array2).result = .ok out ∧ out.degree? = some 1) ∧
    (∀ first diff n : Blob,
      first.degree? = some 1 → diff.degree? = some 1 → n.degree? = some 1 →
      (∃ out, (ArithmeticProgressionElementN first diff n).result = .ok out ∧
        out.degree? = some 2) ∧
      ∃ out, (ArithmeticProgressionSum first diff n).result = .ok out ∧
        out.degree? = some 2) := by
  refine ⟨?_, ?_, ?_⟩
  · intro array hne hdeg
    obtain ⟨cts, rfl, h⟩ := (degreeOne_iff array).1 hdeg
    cases cts with
    | nil => exact absurd rfl hne
    | cons c cts =>
      refine ⟨ArraySum_degreeOne c cts h, ArrayMean_degreeOne c cts h,
        Variance_degreeOne c cts h, ?_⟩
      intro w h1 h2
      rw [List.length_map] at h2
      exact MovingAverage_degreeOne (c :: cts) h w h1 h2
  · intro array1 array2 hne hlen hdeg1 hdeg2
    obtain ⟨cts1, rfl, h1⟩ := (degreeOne_iff array1).1 hdeg1
    obtain ⟨cts2, rfl, _⟩ := (degreeOne_iff array2).1 hdeg2
    cases cts1 with
    | nil => exact absurd rfl hne
    | cons c1 cts1 =>
      cases cts2 with
      | nil => simp at hlen
      | cons c2 cts2 =>
        exact Covariance_degreeOne c1 c2 cts1 cts2 (by simpa using hlen)
          (h1 c1 (List.mem_cons_self c1 cts1))
  · intro first diff n hf hd hn
    cases first with
    | malformed bytes => simp [Blob.degree?] at hf
    | encoded f =>
      cases diff with
      | malformed bytes => simp [Blob.degree?] at hd
      | encoded d =>
        cases n with
        | malformed bytes => simp [Blob.degree?] at hn
        | encoded k =>
          simp only [Blob.degree?, Option.some.injEq] at hf hd hn
          exact ⟨⟨_, ArithmeticProgressionElementN_encoded f d k,
              by simp [Blob.degree?, hf, hd, hn]⟩,
            ⟨_, ArithmeticProgressionSum_encoded f d k, by simp [Blob.degree?, hn]⟩⟩

/-- Instance of C17: on freshly encrypted 2, 3 and 5 both progression helpers return a blob
of degree 2. -/
theorem aggregation_layer_degrees_witness :
    (ArithmeticProgressionElementN (.encoded ⟨2, 1⟩) (.encoded ⟨3, 1⟩)
        (.encoded ⟨5, 1⟩)).result.toOption.bind Blob.degree? = some 2 ∧
    (ArithmeticProgressionSum (.encoded ⟨2, 1⟩) (.encoded ⟨3, 1⟩)
        (.encoded ⟨5, 1⟩)).result.toOption.bind Blob.degree? = some 2 := by
  obtain ⟨⟨o1, h1, d1⟩, ⟨o2, h2, d2⟩⟩ :=
    aggregation_layer_degrees.2.2 (.encoded ⟨2, 1⟩) (.encoded ⟨3, 1⟩) (.encoded ⟨5, 1⟩)
      rfl rfl rfl
  rw [h1, h2]
  exact ⟨d1, d2⟩

/-- C18: on well-formed degree-1 inputs, in the runs of `Variance` and `Covariance` every
`add` call has two degree-1 operands, every product (one per element) is followed at once
by its relinearization and then by the `add` of the relinearized product to a degree-1
running sum, and the result has degree 1. -/
theorem products_relinearized_before_accumulation :
    (∀ array : List Blob, array ≠ [] → (∀ b ∈ array, b.degree? = some 1) →
      (∀ s ∈ (Variance array).trace, s.addAtDegreeOne = true) ∧
      productsRelinearized (Variance array).trace = true ∧
      (Variance array).trace.countP EvalStep.isMul = array.length ∧
      ∃ out, (Variance array).result = .ok out ∧ out.degree? = some 1) ∧
    (∀ array1 array2 : List Blob, array1 ≠ [] → array1.length = array2.length →
      (∀ b ∈ array1, b.degree? = some 1) → (∀ b ∈ array2, b.degree? = some 1) →
      (∀ s ∈ (Covariance array1 array2).trace, s.addAtDegreeOne = true) ∧
      productsRelinearized (Covariance array1 array2).trace = true ∧
      (Covariance array1 array2).trace.countP EvalStep.isMul = array1.length ∧
      ∃ out, (Covariance array1 array2).result = .ok out ∧ out.degree? = some 1) := by
  refine ⟨?_, ?_⟩
  · intro array hne hdeg
    obtain ⟨cts, rfl, h⟩ := (degreeOne_iff array).1 hdeg
    cases cts with
    | nil => exact absurd rfl hne
    | cons c cts =>
      have hc : c.degree = 1 := h c (List.mem_cons_self c cts)
      have hseed : (⟨c.value - c.value, max c.degree c.degree⟩ : Ciphertext).degree = 1 := by
        simp [hc]
      have hmean := ArrayMean_trace_forall c cts h
      refine ⟨?_, ?_, ?_, Variance_degreeOne c cts h⟩
      · intro s hs
        rw [Variance_trace] at hs
        simp only [List.mem_append, List.mem_cons, List.mem_singleton, List.not_mem_nil,
          or_false] at hs
        rcases hs with hs | rfl | hs | rfl
        · exact (hmean s hs).1
        · rfl
        · exact varianceLoop_forall _ _ _ hseed s hs
        · rfl
      · rw [Variance_trace,
          productsRelinearized_append_of_no_mul _ _ (fun s hs => (hmean s hs).2)]
        exact (productsRelinearized_varianceLoop _ (c :: cts) _ hseed _).trans rfl
      · rw [Variance_trace, List.countP_append, List.countP_cons, List.countP_append,
          varianceLoop_countP,
          List.countP_eq_zero.2 (fun s hs => by simp [(hmean s hs).2])]
        simp [EvalStep.isMul]
  · intro array1 array2 hne hlen hdeg1 hdeg2
    obtain ⟨cts1, rfl, h1⟩ := (degreeOne_iff array1).1 hdeg1
    obtain ⟨cts2, rfl, h2⟩ := (degreeOne_iff array2).1 hdeg2
    cases cts1 with
    | nil => exact absurd rfl hne
    | cons c1 cts1 =>
      cases cts2 with
      | nil => simp at hlen
      | cons c2 cts2 =>
        have hl : cts1.length = cts2.length := by simpa using hlen
        have hc : c1.degree = 1 := h1 c1 (List.mem_cons_self c1 cts1)
        have hseed :
            (⟨c1.value - c1.value, max c1.degree c1.degree⟩ : Ciphertext).degree = 1 := by
          simp [hc]
        have hmean1 := ArrayMean_trace_forall c1 cts1 h1
        have hmean2 := ArrayMean_trace_forall c2 cts2 h2
        refine ⟨?_, ?_, ?_, Covariance_degreeOne c1 c2 cts1 cts2 hl hc⟩
        · intro s hs
          rw [Covariance_trace c1 c2 cts1 cts2 hl] at hs
          simp only [List.mem_append, List.mem_cons, List.mem_singleton, List.not_mem_nil,
            or_false] at hs
          rcases hs with hs | hs | rfl | hs | rfl
          · exact (hmean1 s hs).1
          · exact (hmean2 s hs).1
          · rfl
          · exact covarianceLoop_forall _ _ _ _ _ _ hseed s hs
          · rfl
        · rw [Covariance_trace c1 c2 cts1 cts2 hl,
            productsRelinearized_append_of_no_mul _ _ (fun s hs => (hmean1 s hs).2),
            productsRelinearized_append_of_no_mul _ _ (fun s hs => (hmean2 s hs).2)]
          exact (productsRelinearized_covarianceLoop _ _ _ _ _ _ hseed _).trans rfl
        · rw [Covariance_trace c1 c2 cts1 cts2 hl, List.countP_append, List.countP_append,
            List.countP_cons, List.countP_append, covarianceLoop_countP,
            List.countP_eq_zero.2 (fun s hs => by simp [(hmean1 s hs).2]),
            List.countP_eq_zero.2 (fun s hs => by simp [(hmean2 s hs).2])]
          simp [EvalStep.isMul]

/-- Instance of C18: `Variance` of the blobs encrypting 1 and 2, and `Covariance` of them
with the blobs encrypting 3 and 5: two products each, both relinearized before the `add`. -/
theorem products_relinearized_before_accumulation_witness :
    (productsRelinearized (Variance [.encoded ⟨1, 1⟩, .encoded ⟨2, 1⟩]).trace = true ∧
      (Variance [.encoded ⟨1, 1⟩, .encoded ⟨2, 1⟩]).trace.countP EvalStep.isMul = 2) ∧
    (productsRelinearized (Covariance [.encoded ⟨1, 1⟩, .encoded ⟨2, 1⟩]
        [.encoded ⟨3, 1⟩, .encoded ⟨5, 1⟩]).trace = true ∧
      (Covariance [.encoded ⟨1, 1⟩, .encoded ⟨2, 1⟩]
        [.encoded ⟨3, 1⟩, .encoded ⟨5, 1⟩]).trace.countP EvalStep.isMul = 2) := by
  have hv := products_relinearized_before_accumulation.1
    [.encoded ⟨1, 1⟩, .encoded ⟨2, 1⟩] (by simp) (by simp [Blob.degree?])
  have hc := products_relinearized_before_accumulation.2
    [.encoded ⟨1, 1⟩, .encoded ⟨2, 1⟩] [.encoded ⟨3, 1⟩, .encoded ⟨5, 1⟩] (by simp) rfl
    (by simp [Blob.degree?]) (by simp [Blob.degree?])
  exact ⟨⟨hv.2.1, hv.2.2.1⟩, ⟨hc.2.1, hc.2.2.1⟩⟩

/-! ### The last element and the moving average -/

/-- Two loop bodies that agree on every element of the list give the same loop. -/
theorem foldlM_congr {α β : Type} (f f' : β → α → Run β) (ys : List α)
    (h : ∀ b, ∀ y ∈ ys, f b y = f' b y) (init : β) :
    ys.foldlM f init = ys.foldlM f' init := by
  induction ys generalizing init with
  | nil => rfl
  | cons y ys ih =>
    simp only [List.foldlM_cons, Run.bind_eq]
    rw [h init y (List.mem_cons_self y ys)]
    congr 1
    funext b
    exact ih (fun b z hz => h b z (List.mem_cons_of_mem y hz)) b

/-- A window that ends before the last element does not contain it. -/
theorem slice_append_singleton (front : List Blob) (x : Blob) (i : Nat) (w : Int)
    (hw : 0 ≤ w) (hi : (i : Int) + w ≤ (front.length : Int)) :
    slice (front ++ [x]) (i : Int) ((i : Int) + w)
      = Run.ret ((front.drop i).take w.toNat) := by
  have hc : (0 : Int) ≤ (i : Int) ∧ (i : Int) ≤ (i : Int) + w
      ∧ (i : Int) + w ≤ ((front ++ [x]).length : Int) := by
    refine ⟨Int.ofNat_nonneg i, by omega, ?_⟩
    simp only [List.length_append, List.length_singleton, Nat.cast_add, Nat.cast_one]
    omega
  have h1 : i ≤ front.length := by omega
  have h2 : w.toNat ≤ (front.drop i).length := by
    simp only [List.length_drop]
    omega
  simp only [slice, hc, and_self, if_true]
  have h3 : ((i : Int) + w - (i : Int)).toNat = w.toNat := by
    congr 1
    omega
  rw [Int.toNat_ofNat, h3, List.drop_append_of_le_length h1,
    List.take_append_of_le_length h2]

/-- The run of `MovingAverage` does not depend on the last element of the array. -/
theorem MovingAverage_append_singleton (front : List Blob) (x y : Blob) (w : Int)
    (h1 : 1 ≤ w) :
    MovingAverage (front ++ [x]) w = MovingAverage (front ++ [y]) w := by
  have hlen : ((front ++ [x]).length : Int) = ((front ++ [y]).length : Int) := by simp
  have hlen2 : ((front ++ [y]).length : Int) = (front.length : Int) + 1 := by simp
  simp only [MovingAverage, Run.bind_eq, hlen]
  congr 1
  funext r
  apply foldlM_congr
  intro b i hi
  have hi2 : i < (((front ++ [y]).length : Int) - w).toNat := List.mem_range.1 hi
  have hi3 : (i : Int) + w ≤ (front.length : Int) := by omega
  rw [slice_append_singleton front x i w (by omega) hi3,
    slice_append_singleton front y i w (by omega) hi3]

/-- C19: for `1 ≤ windowSize < len(array)`, replacing the last element `array[len-1]` by any
other blob, decodable or not, leaves the whole run of `MovingAverage` (its result and its
evaluator calls) unchanged. -/
theorem MovingAverage_ignores_last (array : List Blob) (other : Blob) (w : Int)
    (h1 : 1 ≤ w) (h2 : w < (array.length : Int)) :
    MovingAverage (array.set (array.length - 1) other) w = MovingAverage array w := by
  have hne : array ≠ [] := by
    intro h0
    simp [h0] at h2
    omega
  have hsplit := List.dropLast_append_getLast hne
  generalize array.dropLast = front at hsplit
  generalize array.getLast hne = last at hsplit
  subst hsplit
  have hset : (front ++ [last]).set ((front ++ [last]).length - 1) other = front ++ [other] := by
    simp
  rw [hset]
  exact MovingAverage_append_singleton front other last w h1

/-- Instance of C19: the last blob replaced by one that fails to deserialize. -/
theorem MovingAverage_ignores_last_witness :
    MovingAverage [.encoded ⟨1, 1⟩, .encoded ⟨2, 1⟩, .encoded ⟨4, 1⟩, .malformed [0]] 2
      = MovingAverage [.encoded ⟨1, 1⟩, .encoded ⟨2, 1⟩, .encoded ⟨4, 1⟩, .encoded ⟨8, 1⟩] 2 :=
  MovingAverage_ignores_last
    [.encoded ⟨1, 1⟩, .encoded ⟨2, 1⟩, .encoded ⟨4, 1⟩, .encoded ⟨8, 1⟩] (.malformed [0]) 2
    (by decide) (by decide)

/-! ### Covariance of an array with itself -/

/-- Every array either consists of decodable blobs or has one that fails to deserialize. -/
theorem decodable_or_malformed (array : List Blob) :
    (∃ cts : List Ciphertext, array = cts.map Blob.encoded) ∨
    ∃ b ∈ array, (unmarshallIntoNewCiphertext b).result = .error .deserialization := by
  induction array with
  | nil => exact Or.inl ⟨[], rfl⟩
  | cons b bs ih =>
    cases b with
    | malformed bytes => exact Or.inr ⟨_, List.mem_cons_self _ _, rfl⟩
    | encoded c =>
      rcases ih with ⟨cts, rfl⟩ | ⟨b, hb, hbad⟩
      · exact Or.inl ⟨c :: cts, rfl⟩
      · exact Or.inr ⟨b, List.mem_cons_of_mem _ hb, hbad⟩

/-- The error `ArrayMean` returns when some element fails to deserialize. -/
theorem ArrayMean_malformed (array : List Blob)
    (h : ∃ b ∈ array, (unmarshallIntoNewCiphertext b).result = .error .deserialization) :
    (ArrayMean array).result = .error .deserialization := by
  simp only [ArrayMean, Run.bind_eq]
  exact Run.result_andThen_error (ArraySum_malformed array h) _

theorem Variance_malformed (array : List Blob)
    (h : ∃ b ∈ array, (unmarshallIntoNewCiphertext b).result = .error .deserialization) :
    (Variance array).result = .error .deserialization := by
  have hlen : ¬ array.length = 0 := by
    obtain ⟨b, hb, _⟩ := h
    intro h0
    rw [List.length_eq_zero.1 h0] at hb
    simp at hb
  simp only [Variance, hlen, if_false, Run.bind_eq]
  exact Run.result_andThen_error (ArrayMean_malformed array h) _

theorem Covariance_self_malformed (array : List Blob)
    (h : ∃ b ∈ array, (unmarshallIntoNewCiphertext b).result = .error .deserialization) :
    (Covariance array array).result = .error .deserialization := by
  have hlen : ¬ array.length = 0 := by
    obtain ⟨b, hb, _⟩ := h
    intro h0
    rw [List.length_eq_zero.1 h0] at hb
    simp at hb
  simp only [Covariance, ne_eq, not_true_eq_false, if_false, hlen, or_self, Run.bind_eq]
  exact Run.result_andThen_error (ArrayMean_malformed array h) _

theorem zip_self_map {α γ : Type} (F : α → α → γ) (l : List α) :
    (List.zip l l).map (fun p => F p.1 p.2) = l.map (fun x => F x x) := by
  induction l with
  | nil => rfl
  | cons a l ih => simp [ih]

/-- On decodable blobs `Covariance(array, array)` and `Variance(array)` return the same
blob. -/
theorem Covariance_self_encoded (c : Ciphertext) (cts : List Ciphertext) :
    (Covariance ((c :: cts).map Blob.encoded) ((c :: cts).map Blob.encoded)).result
      = (Variance ((c :: cts).map Blob.encoded)).result := by
  rw [Covariance_encoded c c cts cts rfl, Variance_encoded c cts,
    zip_self_map (fun a b : Ciphertext =>
      (a.value - (meanCiphertext (c :: cts)).value)
        * (b.value - (meanCiphertext (c :: cts)).value))]
  simp [List.replicate_succ]

/-- C20: for every array, `Covariance(array, array)` and `Variance(array)` end the same way:
both with the same error, or both with the same blob, hence the same plaintext and the same
degree. -/
theorem Covariance_self_eq_Variance (array : List Blob) :
    (Covariance array array).result = (Variance array).result ∧
    ((∃ e, (Covariance array array).result = .error e ∧ (Variance array).result = .error e) ∨
      ∃ cov var, (Covariance array array).result = .ok cov ∧
        (Variance array).result = .ok var ∧
        DecryptCKKS cov = DecryptCKKS var ∧ cov.degree? = var.degree?) := by
  have h : (Covariance array array).result = (Variance array).result := by
    rcases decodable_or_malformed array with ⟨cts, rfl⟩ | hbad
    · cases cts with
      | nil => rfl
      | cons c cts => exact Covariance_self_encoded c cts
    · rw [Covariance_self_malformed array hbad, Variance_malformed array hbad]
  refine ⟨h, ?_⟩
  rw [h]
  cases (Variance array).result with
  | error e => exact Or.inl ⟨e, rfl, rfl⟩
  | ok var => exact Or.inr ⟨var, var, rfl, rfl, rfl, rfl⟩

end ckksMath
